import Mathlib

/-!
Verification of the statevector quantum-circuit simulator
(`useQuantumSimulator` hook: gate matrices, strided gate application,
measurement with collapse, trial execution) against its specification.

The simulator stores a state of `2^numQubits` complex amplitudes as two
parallel `Float32Array`s (`stateReal`, `stateImag`).  We embed an amplitude
pair `{re, im}` as a Mathlib `ℂ` (whose `re`/`im` fields and arithmetic
coincide with the source's `complexMul`/`complexAdd`/`complexMagnitudeSq`),
and the state as a total function `ℕ → ℂ`; indices `≥ 2^numQubits` are
outside the array and every loop below only touches indices `< 2^numQubits`,
mirroring the buffers.  Arithmetic is exact (`ℝ`), the idealization of the
source's floating-point arithmetic; the spec's tolerance statements
(`± 1e-6`) hold exactly in this model.

`Math.random()` is modelled as an ambient stream `ρ : ℕ → ℝ` of values in
`[0, 1)` together with a cursor that advances on every draw.

The whole development lives in a `noncomputable section` only because exact
real arithmetic (`Real.sqrt`, `Real.cos`, …) carries no executable code in
Lean; every definition is otherwise a direct structural translation of the
source and is evaluated on concrete inputs in the witness theorems below.
-/

noncomputable section

/-- State of the simulation: amplitude at each basis-state index.
Embeds the pair of `Float32Array`s of length `2^numQubits`. -/
def StateVec : Type := ℕ → ℂ

/-- A 2×2 complex gate matrix `[[a, b], [c, d]]`; embeds `Complex[][]` values
`gate[0][0] = a`, `gate[0][1] = b`, `gate[1][0] = c`, `gate[1][1] = d`. -/
structure Mat2 where
  a : ℂ
  b : ℂ
  c : ℂ
  d : ℂ

/-- Entry `I` of `GATE_MATRICES`. -/
def iMat : Mat2 := ⟨1, 0, 0, 1⟩

/-- Entry `X` of `GATE_MATRICES`. -/
def xMat : Mat2 := ⟨0, 1, 1, 0⟩

/-- Entry `Y` of `GATE_MATRICES` (`[[0, -i], [i, 0]]`). -/
def yMat : Mat2 := ⟨0, ⟨0, -1⟩, ⟨0, 1⟩, 0⟩

/-- Entry `Z` of `GATE_MATRICES`. -/
def zMat : Mat2 := ⟨1, 0, 0, -1⟩

/-- Entry `H` of `GATE_MATRICES` (entries `±1/√2`). -/
def hMat : Mat2 :=
  ⟨⟨1 / Real.sqrt 2, 0⟩, ⟨1 / Real.sqrt 2, 0⟩, ⟨1 / Real.sqrt 2, 0⟩, ⟨-(1 / Real.sqrt 2), 0⟩⟩

/-- Entry `S` of `GATE_MATRICES` (`[[1, 0], [0, i]]`). -/
def sMat : Mat2 := ⟨1, 0, 0, ⟨0, 1⟩⟩

/-- Entry `Sdg` of `GATE_MATRICES` (`[[1, 0], [0, -i]]`). -/
def sdgMat : Mat2 := ⟨1, 0, 0, ⟨0, -1⟩⟩

/-- Entry `T` of `GATE_MATRICES` (`[[1, 0], [0, cos(π/4) + i·sin(π/4)]]`). -/
def tMat : Mat2 := ⟨1, 0, 0, ⟨Real.cos (Real.pi / 4), Real.sin (Real.pi / 4)⟩⟩

/-- Entry `Tdg` of `GATE_MATRICES`. -/
def tdgMat : Mat2 := ⟨1, 0, 0, ⟨Real.cos (Real.pi / 4), -Real.sin (Real.pi / 4)⟩⟩

/-- Entry `SX` of `GATE_MATRICES`. -/
def sxMat : Mat2 := ⟨⟨0.5, 0.5⟩, ⟨0.5, -0.5⟩, ⟨0.5, -0.5⟩, ⟨0.5, 0.5⟩⟩

/-- The `GATE_MATRICES` record: lookup by gate id, `none` when the key is
absent (embeds the truthiness test `GATE_MATRICES[gateId]`). -/
def GATE_MATRICES (gateId : String) : Option Mat2 :=
  if gateId = "I" then some iMat
  else if gateId = "X" then some xMat
  else if gateId = "Y" then some yMat
  else if gateId = "Z" then some zMat
  else if gateId = "H" then some hMat
  else if gateId = "S" then some sMat
  else if gateId = "Sdg" then some sdgMat
  else if gateId = "T" then some tMat
  else if gateId = "Tdg" then some tdgMat
  else if gateId = "SX" then some sxMat
  else none

/-- The source function `createRx(theta)`. -/
def createRx (theta : ℝ) : Mat2 :=
  ⟨⟨Real.cos (theta / 2), 0⟩, ⟨0, -Real.sin (theta / 2)⟩,
    ⟨0, -Real.sin (theta / 2)⟩, ⟨Real.cos (theta / 2), 0⟩⟩

/-- The source function `createRy(theta)`. -/
def createRy (theta : ℝ) : Mat2 :=
  ⟨⟨Real.cos (theta / 2), 0⟩, ⟨-Real.sin (theta / 2), 0⟩,
    ⟨Real.sin (theta / 2), 0⟩, ⟨Real.cos (theta / 2), 0⟩⟩

/-- The source function `createRz(theta)`. -/
def createRz (theta : ℝ) : Mat2 :=
  ⟨⟨Real.cos (theta / 2), -Real.sin (theta / 2)⟩, 0,
    0, ⟨Real.cos (theta / 2), Real.sin (theta / 2)⟩⟩

/-- The source function `createPhase(phi)`. -/
def createPhase (phi : ℝ) : Mat2 :=
  ⟨1, 0, 0, ⟨Real.cos phi, Real.sin phi⟩⟩

/-- The source function `createU(theta, phi, lambda)`. -/
def createU (theta phi lambda : ℝ) : Mat2 :=
  ⟨⟨Real.cos (theta / 2), 0⟩,
    ⟨-Real.sin (theta / 2) * Real.cos lambda, -Real.sin (theta / 2) * Real.sin lambda⟩,
    ⟨Real.sin (theta / 2) * Real.cos phi, Real.sin (theta / 2) * Real.sin phi⟩,
    ⟨Real.cos (theta / 2) * Real.cos (phi + lambda), Real.cos (theta / 2) * Real.sin (phi + lambda)⟩⟩

/-- The source function `getGateMatrix(gateId, angle?, angles?)`: first the `GATE_MATRICES`
record lookup, then the parametrized switch with `theta = angle ?? Math.PI`;
the `default` branch returns `GATE_MATRICES.I`.  For `U`, the source
destructures `angles ?? [theta, 0, 0]` into its first three entries.  -/
def getGateMatrix (gateId : String) (angle : Option ℝ) (angles : Option (List ℝ)) : Mat2 :=
  match GATE_MATRICES gateId with
  | some m => m
  | none =>
    let theta := angle.getD Real.pi
    if gateId = "Rx" then createRx theta
    else if gateId = "Ry" then createRy theta
    else if gateId = "Rz" then createRz theta
    else if gateId = "P" then createPhase theta
    else if gateId = "U" then
      let as := angles.getD [theta, 0, 0]
      createU (as.getD 0 0) (as.getD 1 0) (as.getD 2 0)
    else iMat

/-- One in-place update of the amplitude pair at indices `(i0, i1)`:
read both amplitudes, write `g` of them back.  Both `applySingleQubitGate`
and `applyControlledGate` perform exactly this with
`g = (a0, a1) ↦ (gate00·a0 + gate01·a1, gate10·a0 + gate11·a1)`, and
`applySwapGate` with `g = (a0, a1) ↦ (a1, a0)`. -/
def pairUpd (g : ℂ → ℂ → ℂ × ℂ) (i0 i1 : ℕ) (v : StateVec) : StateVec :=
  fun k => if k = i0 then (g (v i0) (v i1)).1 else if k = i1 then (g (v i0) (v i1)).2 else v k

/-- Sequentially perform `pairUpd` on a list of index pairs: the loop bodies
of the three gate-application functions. -/
def foldPairs (g : ℂ → ℂ → ℂ × ℂ) (ps : List (ℕ × ℕ)) (v : StateVec) : StateVec :=
  ps.foldl (fun st p => pairUpd g p.1 p.2 st) v

/-- The matrix action on an amplitude pair (`new0`/`new1` in the source). -/
def gateOp (m : Mat2) : ℂ → ℂ → ℂ × ℂ :=
  fun a0 a1 => (m.a * a0 + m.b * a1, m.c * a0 + m.d * a1)

/-- The in-place exchange performed by `applySwapGate`'s temp-swap. -/
def swapOp : ℂ → ℂ → ℂ × ℂ := fun a0 a1 => (a1, a0)

/-- Index pairs visited by `applySingleQubitGate`'s nested loop, in loop
order: outer `i` runs over multiples of `stride * 2` below `dim` (the source
writes `for (i = 0; i < dim; i += stride * 2)`), inner `j` over
`[0, stride)`, producing `(i + j, i + j + stride)` with `stride = 2^target`. -/
def singlePairs (numQubits target : ℕ) : List (ℕ × ℕ) :=
  ((List.range (2 ^ numQubits)).filter (fun i => i % (2 ^ target * 2) = 0)).flatMap
    (fun i => (List.range (2 ^ target)).map (fun j => (i + j, i + j + 2 ^ target)))

/-- The source function `applySingleQubitGate(stateReal, stateImag, numQubits, target, gate)`. -/
def applySingleQubitGate (numQubits target : ℕ) (gate : Mat2) (v : StateVec) : StateVec :=
  foldPairs (gateOp gate) (singlePairs numQubits target) v

/-- Index pairs visited by `applyControlledGate`'s loop, in loop order:
all `i < dim` with the control bit set (`(i & controlMask) !== 0`) and the
target bit clear (`(i & targetMask) === 0`), pairing `i` with
`i | targetMask`. -/
def ctrlPairs (numQubits control target : ℕ) : List (ℕ × ℕ) :=
  ((List.range (2 ^ numQubits)).filter
      (fun i => Nat.testBit i control && !Nat.testBit i target)).map
    (fun i => (i, i ||| 2 ^ target))

/-- The source function `applyControlledGate(stateReal, stateImag, numQubits, control, target, gate)`. -/
def applyControlledGate (numQubits control target : ℕ) (gate : Mat2) (v : StateVec) : StateVec :=
  foldPairs (gateOp gate) (ctrlPairs numQubits control target) v

/-- The source computes `bit1`/`bit2` as the numbers `1`/`0` and swaps when
`bit1 !== bit2 && bit1 < bit2`; this is the per-index condition. -/
def swapCond (qubit1 qubit2 i : ℕ) : Bool :=
  let bit1 : ℕ := if Nat.testBit i qubit1 then 1 else 0
  let bit2 : ℕ := if Nat.testBit i qubit2 then 1 else 0
  decide (bit1 ≠ bit2 ∧ bit1 < bit2)

/-- Index pairs exchanged by `applySwapGate`'s loop, in loop order: all
`i < dim` satisfying `swapCond`, paired with `j = (i ^ mask1) ^ mask2`. -/
def swapPairs (numQubits qubit1 qubit2 : ℕ) : List (ℕ × ℕ) :=
  ((List.range (2 ^ numQubits)).filter (swapCond qubit1 qubit2)).map
    (fun i => (i, i ^^^ 2 ^ qubit1 ^^^ 2 ^ qubit2))

/-- The source function `applySwapGate(stateReal, stateImag, numQubits, qubit1, qubit2)`. -/
def applySwapGate (numQubits qubit1 qubit2 : ℕ) (v : StateVec) : StateVec :=
  foldPairs swapOp (swapPairs numQubits qubit1 qubit2) v

/-- The quantity `prob1` computed by `measureQubit`: sum of `complexMagnitudeSq` over the
indices with the target bit set. -/
def prob1 (numQubits target : ℕ) (v : StateVec) : ℝ :=
  ∑ i in Finset.range (2 ^ numQubits),
    if Nat.testBit i target then Complex.normSq (v i) else 0

/-- The drawn outcome `Math.random() < prob1 ? 1 : 0`, with the random draw
`r` passed in from the ambient stream. -/
def measResult (numQubits target : ℕ) (v : StateVec) (r : ℝ) : ℕ :=
  if r < prob1 numQubits target v then 1 else 0

/-- The renormalization denominator of `measureQubit`:
`norm = Math.sqrt(result === 1 ? prob1 : 1 - prob1)` — used as-is, with no
clamping of near-zero outcome probabilities. -/
def collapseNorm (numQubits target : ℕ) (v : StateVec) (r : ℝ) : ℝ :=
  Real.sqrt (if measResult numQubits target v r = 1 then prob1 numQubits target v
             else 1 - prob1 numQubits target v)

/-- The source function `measureQubit(stateReal, stateImag, numQubits, target)`: returns the
drawn outcome and the collapsed state.  The collapse loop runs over
`i < dim`: amplitudes whose target bit agrees with the outcome have their
`re` and `im` divided by `norm`, the others are zeroed. -/
def measureQubit (numQubits target : ℕ) (v : StateVec) (r : ℝ) : ℕ × StateVec :=
  let res := measResult numQubits target v r
  let norm := collapseNorm numQubits target v r
  (res, fun k =>
    if k < 2 ^ numQubits then
      if (if Nat.testBit k target then 1 else 0) = res then
        ⟨(v k).re / norm, (v k).im / norm⟩
      else 0
    else v k)

/-- A placed gate (`GateInstance`): id, target qubit, optional control
qubit / angle / angles, and the column used for execution ordering. -/
structure GateOp where
  gateId : String
  target : ℕ
  control : Option ℕ
  angle : Option ℝ
  angles : Option (List ℝ)
  column : ℤ

/-- A circuit (`CircuitState` as consumed by the simulator). -/
structure Circuit where
  numQubits : ℕ
  gates : List GateOp

/-- The comparator `(a, b) => a.column - b.column` used with the (stable,
per ES2019) `Array.prototype.sort`, as a boolean ≤-test; sorting with it
via a stable merge sort reproduces the JS sort exactly. -/
def gateLE (a b : GateOp) : Bool := decide (a.column ≤ b.column)

/-- The sorted gate list of `simulateOnce`: the source's expression is written `[...gates].sort((a, b) => a.column - b.column)`. -/
def execOrder (c : Circuit) : List GateOp := c.gates.mergeSort gateLE

/-- The sorted measurement-free gate list of `getStatevector`: the source filters with `g.gateId !== 'M'` before sorting by column. -/
def svOrder (c : Circuit) : List GateOp :=
  (c.gates.filter (fun g => !(g.gateId = "M" : Bool))).mergeSort gateLE

/-- The initial state `|0...0⟩`: zero-filled arrays with `stateReal[0] = 1`. -/
def initState : StateVec := fun k => if k = 0 then 1 else 0

/-- Running state of one trial in `simulateOnce`: the amplitudes, the
`measurements` array, the `measured` flags, and the cursor into the ambient
`Math.random()` stream. -/
structure SimSt where
  v : StateVec
  meas : ℕ → ℕ
  measured : ℕ → Bool
  cursor : ℕ

/-- Negative-control dispatch: the gate loop receives the resolved control
as a JS number.  For `control ≥ 0` (every control that actually indexes a
qubit) this is `applyControlledGate`.  A negative resolved control (only
`-1`, from a control-less `CNOT`/`CZ` on target 0) makes
`controlMask = 1 << -1` the JS int32 `1 << 31`, a mask whose bit is set on
no state index (`dim ≤ 2^31`), so the loop body never runs and the state is
untouched. -/
def applyControlledGateZ (numQubits : ℕ) (control : ℤ) (target : ℕ) (gate : Mat2)
    (v : StateVec) : StateVec :=
  if 0 ≤ control then applyControlledGate numQubits control.toNat target gate v else v

/-- One iteration of the gate loop in `simulateOnce`: dispatch on `gateId`
(`M`, `CNOT`, `CZ`, `SWAP`, else single-qubit), resolving a missing control
as `control ?? target - 1` (JS numbers: `target - 1` may be `-1`) and a
missing SWAP partner as `control ?? target + 1`. -/
def simStep (numQubits : ℕ) (rho : ℕ → ℝ) (st : SimSt) (g : GateOp) : SimSt :=
  if g.gateId = "M" then
    let m := measureQubit numQubits g.target st.v (rho st.cursor)
    { v := m.2, meas := Function.update st.meas g.target m.1,
      measured := Function.update st.measured g.target true, cursor := st.cursor + 1 }
  else if g.gateId = "CNOT" then
    let ctrlQubit : ℤ := match g.control with | some c => (c : ℤ) | none => (g.target : ℤ) - 1
    { st with v := applyControlledGateZ numQubits ctrlQubit g.target xMat st.v }
  else if g.gateId = "CZ" then
    let ctrlQubit : ℤ := match g.control with | some c => (c : ℤ) | none => (g.target : ℤ) - 1
    { st with v := applyControlledGateZ numQubits ctrlQubit g.target zMat st.v }
  else if g.gateId = "SWAP" then
    let qubit2 : ℕ := g.control.getD (g.target + 1)
    { st with v := applySwapGate numQubits g.target qubit2 st.v }
  else
    let matrix := getGateMatrix g.gateId g.angle g.angles
    { st with v := applySingleQubitGate numQubits g.target matrix st.v }

/-- The final-measurement loop of `simulateOnce`: every qubit not yet
measured is measured now (only `measurements[q]` is written; the `measured`
flag is not needed again). -/
def finalMeasure (numQubits : ℕ) (rho : ℕ → ℝ) (st : SimSt) : SimSt :=
  (List.range numQubits).foldl
    (fun s q =>
      if s.measured q then s
      else
        let m := measureQubit numQubits q s.v (rho s.cursor)
        { s with v := m.2, meas := Function.update s.meas q m.1, cursor := s.cursor + 1 })
    st

/-- The trial bitstring `measurements.map(b => b.toString()).join('')` (little-endian). -/
def bitstring (numQubits : ℕ) (meas : ℕ → ℕ) : String :=
  String.join ((List.range numQubits).map (fun q => Nat.repr (meas q)))

/-- The source function `simulateOnce(circuit)`, with the ambient random stream `rho` and its
cursor made explicit: returns the trial's bitstring and the advanced cursor. -/
def simulateOnce (c : Circuit) (rho : ℕ → ℝ) (cursor : ℕ) : String × ℕ :=
  let st0 : SimSt :=
    { v := initState, meas := fun _ => 0, measured := fun _ => false, cursor := cursor }
  let st1 := (execOrder c).foldl (simStep c.numQubits rho) st0
  let st2 := finalMeasure c.numQubits rho st1
  (bitstring c.numQubits st2.meas, st2.cursor)

/-- The shot loop of `executeCircuit`: run `simulateOnce` `shots` times,
incrementing `counts[result]` each time.  `executeCircuit` performs no
validation of the circuit before or during this loop — the only guards in
the source are the `isReady` backend flag and a `try/catch` around the loop,
neither of which inspects the circuit. -/
def executeCircuitCounts (c : Circuit) (shots : ℕ) (rho : ℕ → ℝ) : String → ℕ :=
  ((List.range shots).foldl
    (fun (acc : (String → ℕ) × ℕ) _ =>
      let r := simulateOnce c rho acc.2
      (Function.update acc.1 r.1 (acc.1 r.1 + 1), r.2))
    (fun _ => 0, 0)).1

/-- One iteration of the gate loop in `getStatevector`: identical dispatch
to `simulateOnce` except that there is no `M` case (measurement gates were
filtered out beforehand) and no access to the random stream. -/
def svStep (numQubits : ℕ) (v : StateVec) (g : GateOp) : StateVec :=
  if g.gateId = "CNOT" then
    let ctrlQubit : ℤ := match g.control with | some c => (c : ℤ) | none => (g.target : ℤ) - 1
    applyControlledGateZ numQubits ctrlQubit g.target xMat v
  else if g.gateId = "CZ" then
    let ctrlQubit : ℤ := match g.control with | some c => (c : ℤ) | none => (g.target : ℤ) - 1
    applyControlledGateZ numQubits ctrlQubit g.target zMat v
  else if g.gateId = "SWAP" then
    let qubit2 : ℕ := g.control.getD (g.target + 1)
    applySwapGate numQubits g.target qubit2 v
  else
    applySingleQubitGate numQubits g.target (getGateMatrix g.gateId g.angle g.angles) v

/-- The source function `getStatevector(circuit)`: filter out measurements, sort by column,
apply the gates to `|0...0⟩`, and return the `real`/`imag` arrays
(`Array.from(stateReal)`, `Array.from(stateImag)`).  Like the source, it
never reads the ambient random stream; the `rho` parameter only represents
that ambient stream being available. -/
def getStatevector (c : Circuit) (_rho : ℕ → ℝ) : (ℕ → ℝ) × (ℕ → ℝ) :=
  let vfinal := (svOrder c).foldl (svStep c.numQubits) initState
  (fun k => (vfinal k).re, fun k => (vfinal k).im)

/-- Squared 2-norm of the state: `Σ real[i]² + imag[i]²` over the array. -/
def normSqSum (numQubits : ℕ) (v : StateVec) : ℝ :=
  ∑ i in Finset.range (2 ^ numQubits), Complex.normSq (v i)

/-- Unitarity of a 2×2 matrix, stated as orthonormality of its columns
(`Mᴴ·M = I` written out entrywise). -/
def Mat2.unitary (m : Mat2) : Prop :=
  (starRingEnd ℂ) m.a * m.a + (starRingEnd ℂ) m.c * m.c = 1 ∧
  (starRingEnd ℂ) m.b * m.b + (starRingEnd ℂ) m.d * m.d = 1 ∧
  (starRingEnd ℂ) m.a * m.b + (starRingEnd ℂ) m.c * m.d = 0

/-- Matrix product of two 2×2 matrices (row-by-column), for stating gate compositions. -/
def matMul (p q : Mat2) : Mat2 :=
  ⟨p.a * q.a + p.b * q.c, p.a * q.b + p.b * q.d,
    p.c * q.a + p.d * q.c, p.c * q.b + p.d * q.d⟩

/-- Well-formedness of a list of index pairs: within a pair the indices
differ, and across pairs all four indices differ.  Each gate loop's pair
list has this property; it makes the in-place updates independent. -/
def PairsOk (ps : List (ℕ × ℕ)) : Prop :=
  (∀ p ∈ ps, p.1 ≠ p.2) ∧
  ps.Pairwise (fun p q => p.1 ≠ q.1 ∧ p.1 ≠ q.2 ∧ p.2 ≠ q.1 ∧ p.2 ≠ q.2)

/-- An ambient random stream that always returns `1/2`. -/
def rhoHalf : ℕ → ℝ := fun _ => 1 / 2

/-- An ambient random stream that always returns `0`. -/
def rho0 : ℕ → ℝ := fun _ => 0

/-- A one-qubit state with an almost-vanishing amplitude `2⁻⁶⁰` on `|1⟩`
(probability `2⁻¹²⁰`), used to exercise `measureQubit` on a near-zero
outcome probability. -/
def vtiny : StateVec :=
  fun k => if k = 0 then 1 else if k = 1 then (((2 : ℝ) ^ (60 : ℕ))⁻¹ : ℝ) else 0

/-- A `CNOT` whose control equals its target — a `DuplicateQubitRole`
validation error. -/
def gCNOT00 : GateOp := ⟨"CNOT", 0, some 0, none, none, 0⟩

/-- A circuit containing only the invalid gate `gCNOT00`. -/
def cInvalid : Circuit := ⟨1, [gCNOT00]⟩

/-- A gate with an unrecognized identifier — an `UnknownGate` validation
error. -/
def gFoo : GateOp := ⟨"FOO", 0, none, none, none, 0⟩

/-- A circuit containing only the unknown gate `gFoo`. -/
def cFoo : Circuit := ⟨1, [gFoo]⟩

/-- A Hadamard on qubit 0. -/
def gH0 : GateOp := ⟨"H", 0, none, none, none, 0⟩

/-- A measurement gate on qubit 0. -/
def gM0 : GateOp := ⟨"M", 0, none, none, none, 1⟩

/-- A one-qubit circuit with a Hadamard followed by a measurement. -/
def cHM : Circuit := ⟨1, [gH0, gM0]⟩

/-- A control-less `CNOT` on target 0 (the dispatch resolves its control to
`0 - 1 = -1`). -/
def gCNOTnone : GateOp := ⟨"CNOT", 0, none, none, none, 0⟩

/-- A concrete trial state for exercising `simStep`. -/
def stEx : SimSt := ⟨initState, fun _ => 0, fun _ => false, 0⟩

/-! ### Arithmetic lemmas about the bit of an index at position `t`

The source tests bits with masks (`i & (1 << t)`); we reason about the
equivalent arithmetic form `i / 2^t % 2`. -/

theorem div_two_pow_eq_zero_iff {r t : ℕ} : r / 2 ^ t = 0 ↔ r < 2 ^ t := by
  constructor
  · intro h
    have hr := Nat.div_add_mod r (2 ^ t)
    rw [h, Nat.mul_zero, Nat.zero_add] at hr
    rw [← hr]
    exact Nat.mod_lt _ (Nat.two_pow_pos t)
  · exact Nat.div_eq_of_lt

theorem bit_zero_iff {a t : ℕ} : a / 2 ^ t % 2 = 0 ↔ a % (2 ^ t * 2) < 2 ^ t := by
  rw [← Nat.mod_mul_right_div_self, div_two_pow_eq_zero_iff]

theorem bit_one_iff {a t : ℕ} : a / 2 ^ t % 2 = 1 ↔ 2 ^ t ≤ a % (2 ^ t * 2) := by
  rw [← Nat.mod_mul_right_div_self]
  have hrlt : a % (2 ^ t * 2) < 2 ^ t * 2 := Nat.mod_lt _ (by positivity)
  constructor
  · intro h
    by_contra h'
    push_neg at h'
    rw [Nat.div_eq_of_lt h'] at h
    exact absurd h (by omega)
  · intro h
    exact Nat.div_eq_of_lt_le (by omega) (by omega)

theorem testBit_true_iff {a t : ℕ} : Nat.testBit a t = true ↔ a / 2 ^ t % 2 = 1 := by
  rw [Nat.testBit_to_div_mod]
  simp

theorem testBit_false_iff {a t : ℕ} : Nat.testBit a t = false ↔ a / 2 ^ t % 2 = 0 := by
  rw [Nat.testBit_to_div_mod]
  have := Nat.mod_two_eq_zero_or_one (a / 2 ^ t)
  simp only [decide_eq_false_iff_not]
  omega

theorem bit_add_pow {a t : ℕ} (h : a / 2 ^ t % 2 = 0) : (a + 2 ^ t) / 2 ^ t % 2 = 1 := by
  have hr := bit_zero_iff.mp h
  rw [← Nat.mod_mul_right_div_self]
  have hmod : (a + 2 ^ t) % (2 ^ t * 2) = a % (2 ^ t * 2) + 2 ^ t := by
    conv_lhs => rw [← Nat.div_add_mod a (2 ^ t * 2)]
    rw [Nat.add_assoc, Nat.mul_add_mod]
    exact Nat.mod_eq_of_lt (by omega)
  rw [hmod]
  exact Nat.div_eq_of_lt_le (by omega) (by omega)

theorem bit_le_self {a t : ℕ} (h : a / 2 ^ t % 2 = 1) : 2 ^ t ≤ a :=
  le_trans (bit_one_iff.mp h) (Nat.mod_le _ _)

theorem bit_sub_pow {a t : ℕ} (h : a / 2 ^ t % 2 = 1) : (a - 2 ^ t) / 2 ^ t % 2 = 0 := by
  have hr := bit_one_iff.mp h
  have hrlt : a % (2 ^ t * 2) < 2 ^ t * 2 := Nat.mod_lt _ (by positivity)
  have hq := Nat.div_add_mod a (2 ^ t * 2)
  rw [bit_zero_iff]
  have heq : a - 2 ^ t = 2 ^ t * 2 * (a / (2 ^ t * 2)) + (a % (2 ^ t * 2) - 2 ^ t) := by omega
  rw [heq, Nat.mul_add_mod, Nat.mod_eq_of_lt (by omega)]
  omega

theorem add_pow_lt_of_bit_zero {a t n : ℕ} (ht : t < n) (ha : a < 2 ^ n)
    (h : a / 2 ^ t % 2 = 0) : a + 2 ^ t < 2 ^ n := by
  have hD : 2 ^ t * 2 ∣ 2 ^ n := by
    have h21 : 2 ^ t * 2 = 2 ^ (t + 1) := by ring
    rw [h21]
    exact pow_dvd_pow 2 ht
  obtain ⟨m, hm⟩ := hD
  have hr := bit_zero_iff.mp h
  have hq := Nat.div_add_mod a (2 ^ t * 2)
  have hqm : a / (2 ^ t * 2) < m := by
    by_contra h'
    push_neg at h'
    have hmul : 2 ^ t * 2 * m ≤ 2 ^ t * 2 * (a / (2 ^ t * 2)) :=
      Nat.mul_le_mul_left _ h'
    omega
  have hstep : 2 ^ t * 2 * (a / (2 ^ t * 2) + 1) ≤ 2 ^ t * 2 * m :=
    Nat.mul_le_mul_left _ hqm
  have hdist : 2 ^ t * 2 * (a / (2 ^ t * 2) + 1)
      = 2 ^ t * 2 * (a / (2 ^ t * 2)) + 2 ^ t * 2 := by ring
  omega

theorem testBit_high {q s s' t i : ℕ} (hs : s < 2 ^ (t + 1)) (hs' : s' < 2 ^ (t + 1))
    (hi : t < i) :
    Nat.testBit (2 ^ (t + 1) * q + s) i = Nat.testBit (2 ^ (t + 1) * q + s') i := by
  have key : ∀ u, u < 2 ^ (t + 1) → (2 ^ (t + 1) * q + u) / 2 ^ i = q / 2 ^ (i - (t + 1)) := by
    intro u hu
    have hsplit : 2 ^ i = 2 ^ (t + 1) * 2 ^ (i - (t + 1)) := by
      rw [← pow_add]
      congr 1
      omega
    rw [hsplit, ← Nat.div_div_eq_div_mul, Nat.mul_add_div (Nat.two_pow_pos _),
      Nat.div_eq_of_lt hu, Nat.add_zero]
  rw [Nat.testBit_to_div_mod, Nat.testBit_to_div_mod, key s hs, key s' hs']

theorem testBit_add_pow_of_ne {a t c : ℕ} (hct : c ≠ t) (h : a / 2 ^ t % 2 = 0) :
    Nat.testBit (a + 2 ^ t) c = Nat.testBit a c := by
  rcases Nat.lt_or_ge c t with hlt | hge
  · rw [Nat.add_comm]
    exact Nat.testBit_two_pow_add_gt hlt a
  · have hgt : t < c := lt_of_le_of_ne hge (Ne.symm hct)
    have hpow : 2 ^ (t + 1) = 2 ^ t * 2 := pow_succ 2 t
    have hq := Nat.div_add_mod a (2 ^ (t + 1))
    have hr : a % 2 ^ (t + 1) < 2 ^ t := by
      rw [hpow]
      exact bit_zero_iff.mp h
    have e1 : a + 2 ^ t = 2 ^ (t + 1) * (a / 2 ^ (t + 1)) + (a % 2 ^ (t + 1) + 2 ^ t) := by
      omega
    have e2 : a = 2 ^ (t + 1) * (a / 2 ^ (t + 1)) + a % 2 ^ (t + 1) := by omega
    rw [e1]
    conv_rhs => rw [e2]
    exact testBit_high (by omega) (by omega) hgt

theorem lor_two_pow_of_bit_zero {a t : ℕ} (h : a / 2 ^ t % 2 = 0) :
    a ||| 2 ^ t = a + 2 ^ t := by
  apply Nat.eq_of_testBit_eq
  intro i
  rw [Nat.testBit_lor, Nat.testBit_two_pow]
  by_cases hit : t = i
  · subst hit
    rw [testBit_false_iff.mpr h]
    rw [show Nat.testBit (a + 2 ^ t) t = true from testBit_true_iff.mpr (bit_add_pow h)]
    simp
  · rw [testBit_add_pow_of_ne (fun hc => hit hc.symm) h]
    simp [hit]

/-! ### Independence of the in-place pair updates -/

theorem foldPairs_nil (g : ℂ → ℂ → ℂ × ℂ) (v : StateVec) : foldPairs g [] v = v := rfl

theorem foldPairs_cons (g : ℂ → ℂ → ℂ × ℂ) (p : ℕ × ℕ) (ps : List (ℕ × ℕ)) (v : StateVec) :
    foldPairs g (p :: ps) v = foldPairs g ps (pairUpd g p.1 p.2 v) := rfl

theorem pairUpd_fst (g : ℂ → ℂ → ℂ × ℂ) (i0 i1 : ℕ) (v : StateVec) :
    pairUpd g i0 i1 v i0 = (g (v i0) (v i1)).1 := by
  simp [pairUpd]

theorem pairUpd_snd (g : ℂ → ℂ → ℂ × ℂ) (i0 i1 : ℕ) (v : StateVec) (hne : i0 ≠ i1) :
    pairUpd g i0 i1 v i1 = (g (v i0) (v i1)).2 := by
  simp [pairUpd, Ne.symm hne]

theorem pairUpd_other (g : ℂ → ℂ → ℂ × ℂ) (i0 i1 : ℕ) (v : StateVec) (k : ℕ)
    (h0 : k ≠ i0) (h1 : k ≠ i1) : pairUpd g i0 i1 v k = v k := by
  simp [pairUpd, h0, h1]

/-- An index belonging to no pair of the list is never written. -/
theorem foldPairs_notmem (g : ℂ → ℂ → ℂ × ℂ) :
    ∀ (ps : List (ℕ × ℕ)) (v : StateVec) (k : ℕ),
      (∀ p ∈ ps, k ≠ p.1 ∧ k ≠ p.2) → foldPairs g ps v k = v k := by
  intro ps
  induction ps with
  | nil => intro v k _; rfl
  | cons q ps ih =>
    intro v k hk
    have hq := hk q (by simp)
    rw [foldPairs_cons, ih _ k (fun p hp => hk p (List.mem_cons_of_mem _ hp))]
    exact pairUpd_other g q.1 q.2 v k hq.1 hq.2

/-- On a well-formed pair list, the values finally stored at a pair's two
indices are the update of the pair's original values: the loop touches each
pair exactly once and pairs do not interfere. -/
theorem foldPairs_mem (g : ℂ → ℂ → ℂ × ℂ) :
    ∀ (ps : List (ℕ × ℕ)), PairsOk ps → ∀ (v : StateVec) (p : ℕ × ℕ), p ∈ ps →
      foldPairs g ps v p.1 = (g (v p.1) (v p.2)).1 ∧
      foldPairs g ps v p.2 = (g (v p.1) (v p.2)).2 := by
  intro ps
  induction ps with
  | nil => intro _ v p hp; cases hp
  | cons q ps ih =>
    intro hok v p hp
    obtain ⟨hne, hpw⟩ := hok
    rw [List.pairwise_cons] at hpw
    obtain ⟨hq, hpw'⟩ := hpw
    have hqne : q.1 ≠ q.2 := hne q (by simp)
    rcases List.mem_cons.mp hp with rfl | hmem
    · constructor
      · rw [foldPairs_cons,
          foldPairs_notmem g ps _ p.1 (fun x hx => ⟨(hq x hx).1, (hq x hx).2.1⟩),
          pairUpd_fst]
      · rw [foldPairs_cons,
          foldPairs_notmem g ps _ p.2 (fun x hx => ⟨(hq x hx).2.2.1, (hq x hx).2.2.2⟩),
          pairUpd_snd g p.1 p.2 v hqne]
    · have hok' : PairsOk ps := ⟨fun x hx => hne x (List.mem_cons_of_mem _ hx), hpw'⟩
      have hrel := hq p hmem
      have hv1 : pairUpd g q.1 q.2 v p.1 = v p.1 :=
        pairUpd_other g q.1 q.2 v p.1 (Ne.symm hrel.1) (Ne.symm hrel.2.2.1)
      have hv2 : pairUpd g q.1 q.2 v p.2 = v p.2 :=
        pairUpd_other g q.1 q.2 v p.2 (Ne.symm hrel.2.1) (Ne.symm hrel.2.2.2)
      have hih := ih hok' (pairUpd g q.1 q.2 v) p hmem
      rw [hv1, hv2] at hih
      rw [foldPairs_cons]
      exact hih

/-! ### Membership in the three gate loops' pair lists -/

theorem mem_singlePairs {numQubits target : ℕ} (ht : target < numQubits) {p : ℕ × ℕ} :
    p ∈ singlePairs numQubits target ↔
      p.1 < 2 ^ numQubits ∧ p.1 / 2 ^ target % 2 = 0 ∧ p.2 = p.1 + 2 ^ target := by
  have hpos : 0 < 2 ^ target := Nat.two_pow_pos target
  unfold singlePairs
  rw [List.mem_flatMap]
  constructor
  · rintro ⟨i, hi, hp⟩
    rw [List.mem_filter, List.mem_range] at hi
    obtain ⟨hilt, hcond⟩ := hi
    have himod : i % (2 ^ target * 2) = 0 := by simpa using hcond
    rw [List.mem_map] at hp
    obtain ⟨j, hj, rfl⟩ := hp
    rw [List.mem_range] at hj
    have hibit : i / 2 ^ target % 2 = 0 := bit_zero_iff.mpr (by omega)
    have hiplus : i + 2 ^ target < 2 ^ numQubits := add_pow_lt_of_bit_zero ht hilt hibit
    refine ⟨by omega, ?_, rfl⟩
    obtain ⟨m, rfl⟩ := Nat.dvd_of_mod_eq_zero himod
    rw [bit_zero_iff, Nat.mul_add_mod, Nat.mod_eq_of_lt (by omega)]
    omega
  · rintro ⟨h1, h2, h3⟩
    refine ⟨2 ^ target * 2 * (p.1 / (2 ^ target * 2)), ?_, ?_⟩
    · rw [List.mem_filter, List.mem_range]
      have hle : 2 ^ target * 2 * (p.1 / (2 ^ target * 2)) ≤ p.1 := by
        have := Nat.div_add_mod p.1 (2 ^ target * 2)
        omega
      exact ⟨by omega, by simp [Nat.mul_mod_right]⟩
    · rw [List.mem_map]
      refine ⟨p.1 % (2 ^ target * 2), ?_, ?_⟩
      · rw [List.mem_range]
        exact bit_zero_iff.mp h2
      · have hsum : 2 ^ target * 2 * (p.1 / (2 ^ target * 2)) + p.1 % (2 ^ target * 2) = p.1 :=
          Nat.div_add_mod p.1 (2 ^ target * 2)
        rw [hsum, ← h3]

theorem mem_ctrlPairs {numQubits control target : ℕ} {p : ℕ × ℕ} :
    p ∈ ctrlPairs numQubits control target ↔
      p.1 < 2 ^ numQubits ∧ Nat.testBit p.1 control = true ∧
        p.1 / 2 ^ target % 2 = 0 ∧ p.2 = p.1 + 2 ^ target := by
  unfold ctrlPairs
  rw [List.mem_map]
  constructor
  · rintro ⟨i, hi, rfl⟩
    rw [List.mem_filter, List.mem_range] at hi
    obtain ⟨hilt, hcond⟩ := hi
    rw [Bool.and_eq_true, Bool.not_eq_true'] at hcond
    have hbit : i / 2 ^ target % 2 = 0 := testBit_false_iff.mp hcond.2
    exact ⟨hilt, hcond.1, hbit, lor_two_pow_of_bit_zero hbit⟩
  · rintro ⟨h1, h2, h3, h4⟩
    refine ⟨p.1, ?_, ?_⟩
    · rw [List.mem_filter, List.mem_range, Bool.and_eq_true, Bool.not_eq_true']
      exact ⟨h1, h2, testBit_false_iff.mpr h3⟩
    · rw [lor_two_pow_of_bit_zero h3, ← h4]

theorem swapCond_iff {q1 q2 i : ℕ} :
    swapCond q1 q2 i = true ↔ Nat.testBit i q1 = false ∧ Nat.testBit i q2 = true := by
  unfold swapCond
  cases h1 : Nat.testBit i q1 <;> cases h2 : Nat.testBit i q2 <;> simp

theorem mem_swapPairs {numQubits q1 q2 : ℕ} {p : ℕ × ℕ} :
    p ∈ swapPairs numQubits q1 q2 ↔
      p.1 < 2 ^ numQubits ∧ Nat.testBit p.1 q1 = false ∧ Nat.testBit p.1 q2 = true ∧
        p.2 = p.1 ^^^ 2 ^ q1 ^^^ 2 ^ q2 := by
  unfold swapPairs
  rw [List.mem_map]
  constructor
  · rintro ⟨i, hi, rfl⟩
    rw [List.mem_filter, List.mem_range] at hi
    exact ⟨hi.1, (swapCond_iff.mp hi.2).1, (swapCond_iff.mp hi.2).2, rfl⟩
  · rintro ⟨h1, h2, h3, h4⟩
    refine ⟨p.1, ?_, ?_⟩
    · rw [List.mem_filter, List.mem_range]
      exact ⟨h1, swapCond_iff.mpr ⟨h2, h3⟩⟩
    · rw [← h4]

/-! ### Well-formedness of the pair lists -/

theorem pairsOk_of_fst_lt {t : ℕ} {ps : List (ℕ × ℕ)}
    (hlt : ps.Pairwise (fun p q => p.1 < q.1))
    (hchar : ∀ p ∈ ps, p.1 / 2 ^ t % 2 = 0 ∧ p.2 = p.1 + 2 ^ t) : PairsOk ps := by
  have hpos : 0 < 2 ^ t := Nat.two_pow_pos t
  constructor
  · intro p hp
    have h := (hchar p hp).2
    omega
  · refine hlt.imp_of_mem (fun {p q} hp hq hlt' => ?_)
    obtain ⟨hp0, hp2⟩ := hchar p hp
    obtain ⟨hq0, hq2⟩ := hchar q hq
    have hp1 : p.2 / 2 ^ t % 2 = 1 := hp2 ▸ bit_add_pow hp0
    refine ⟨by omega, by omega, ?_, by omega⟩
    intro he
    rw [he] at hp1
    omega

theorem singlePairs_fst_lt (numQubits target : ℕ) :
    (singlePairs numQubits target).Pairwise (fun p q => p.1 < q.1) := by
  unfold singlePairs
  rw [List.pairwise_flatMap]
  constructor
  · intro i _
    rw [List.pairwise_map]
    exact (List.pairwise_lt_range _).imp (fun {a b} h => by show i + a < i + b; omega)
  · refine ((List.pairwise_lt_range _).filter _).imp_of_mem (fun {a b} ha hb hab => ?_)
    rw [List.mem_filter] at ha hb
    have hamod : a % (2 ^ target * 2) = 0 := by simpa using ha.2
    have hbmod : b % (2 ^ target * 2) = 0 := by simpa using hb.2
    intro x hx y hy
    rw [List.mem_map] at hx hy
    obtain ⟨j, hj, rfl⟩ := hx
    obtain ⟨j', hj', rfl⟩ := hy
    rw [List.mem_range] at hj hj'
    show a + j < b + j'
    obtain ⟨ma, rfl⟩ := Nat.dvd_of_mod_eq_zero hamod
    obtain ⟨mb, rfl⟩ := Nat.dvd_of_mod_eq_zero hbmod
    have hm : ma < mb := Nat.lt_of_mul_lt_mul_left hab
    have hmul : 2 ^ target * 2 * (ma + 1) ≤ 2 ^ target * 2 * mb := Nat.mul_le_mul_left _ hm
    have hdist : 2 ^ target * 2 * (ma + 1) = 2 ^ target * 2 * ma + 2 ^ target * 2 := by ring
    have hpos : 0 < 2 ^ target := Nat.two_pow_pos target
    omega

theorem pairsOk_singlePairs {numQubits target : ℕ} (ht : target < numQubits) :
    PairsOk (singlePairs numQubits target) :=
  pairsOk_of_fst_lt (singlePairs_fst_lt numQubits target)
    (fun p hp => ⟨((mem_singlePairs ht).mp hp).2.1, ((mem_singlePairs ht).mp hp).2.2⟩)

theorem ctrlPairs_fst_lt (numQubits control target : ℕ) :
    (ctrlPairs numQubits control target).Pairwise (fun p q => p.1 < q.1) := by
  unfold ctrlPairs
  rw [List.pairwise_map]
  exact ((List.pairwise_lt_range _).filter _).imp (fun {a b} h => by show a < b; omega)

theorem pairsOk_ctrlPairs {numQubits control target : ℕ} :
    PairsOk (ctrlPairs numQubits control target) :=
  pairsOk_of_fst_lt (ctrlPairs_fst_lt numQubits control target)
    (fun p hp => ⟨(mem_ctrlPairs.mp hp).2.2.1, (mem_ctrlPairs.mp hp).2.2.2⟩)

theorem testBit_xor_mask_self {a q1 q2 : ℕ} (hne : q2 ≠ q1) :
    Nat.testBit (a ^^^ 2 ^ q1 ^^^ 2 ^ q2) q1 = !(Nat.testBit a q1) := by
  rw [Nat.testBit_xor, Nat.testBit_xor, Nat.testBit_two_pow_self, Nat.testBit_two_pow]
  simp [hne]

theorem testBit_xor_mask_other {a q1 q2 : ℕ} (hne : q1 ≠ q2) :
    Nat.testBit (a ^^^ 2 ^ q1 ^^^ 2 ^ q2) q2 = !(Nat.testBit a q2) := by
  rw [Nat.testBit_xor, Nat.testBit_xor, Nat.testBit_two_pow_self, Nat.testBit_two_pow]
  simp [hne]

theorem xor_masks_invol (a q1 q2 : ℕ) :
    a ^^^ 2 ^ q1 ^^^ 2 ^ q2 ^^^ 2 ^ q1 ^^^ 2 ^ q2 = a := by
  apply Nat.eq_of_testBit_eq
  intro i
  simp only [Nat.testBit_xor]
  generalize Nat.testBit a i = x
  generalize Nat.testBit (2 ^ q1) i = y
  generalize Nat.testBit (2 ^ q2) i = z
  cases x <;> cases y <;> cases z <;> rfl

theorem swapPairs_fst_lt (numQubits q1 q2 : ℕ) :
    (swapPairs numQubits q1 q2).Pairwise (fun p q => p.1 < q.1) := by
  unfold swapPairs
  rw [List.pairwise_map]
  exact ((List.pairwise_lt_range _).filter _).imp (fun {a b} h => by show a < b; omega)

theorem pairsOk_swapPairs {numQubits q1 q2 : ℕ} (hne : q1 ≠ q2) :
    PairsOk (swapPairs numQubits q1 q2) := by
  constructor
  · intro p hp
    obtain ⟨_, h2, _, h4⟩ := mem_swapPairs.mp hp
    intro he
    have hb : Nat.testBit p.2 q1 = true := by
      rw [h4, testBit_xor_mask_self (Ne.symm hne), h2]
      rfl
    rw [← he, h2] at hb
    exact Bool.noConfusion hb
  · refine (swapPairs_fst_lt numQubits q1 q2).imp_of_mem (fun {p q} hp hq hlt => ?_)
    obtain ⟨_, hp1, hp2, hp4⟩ := mem_swapPairs.mp hp
    obtain ⟨_, hq1, hq2, hq4⟩ := mem_swapPairs.mp hq
    have hpb : Nat.testBit p.2 q1 = true := by
      rw [hp4, testBit_xor_mask_self (Ne.symm hne), hp1]
      rfl
    have hqb : Nat.testBit q.2 q1 = true := by
      rw [hq4, testBit_xor_mask_self (Ne.symm hne), hq1]
      rfl
    refine ⟨Nat.ne_of_lt hlt, ?_, ?_, ?_⟩
    · intro he
      rw [he, hqb] at hp1
      exact Bool.noConfusion hp1
    · intro he
      rw [← he, hpb] at hq1
      exact Bool.noConfusion hq1
    · intro he
      have heq : p.1 = q.1 := by
        have h := he
        rw [hp4, hq4] at h
        have h2 := congrArg (fun x => x ^^^ 2 ^ q1 ^^^ 2 ^ q2) h
        simpa only [xor_masks_invol] using h2
      omega

/-! ### Pointwise characterization of the three gate applications -/

theorem applySingleQubitGate_frame {numQubits target : ℕ} (ht : target < numQubits)
    (m : Mat2) (v : StateVec) {k : ℕ} (hk : 2 ^ numQubits ≤ k) :
    applySingleQubitGate numQubits target m v k = v k := by
  apply foldPairs_notmem
  intro p hp
  obtain ⟨h1, h2, h3⟩ := (mem_singlePairs ht).mp hp
  have h4 : p.2 < 2 ^ numQubits := h3 ▸ add_pow_lt_of_bit_zero ht h1 h2
  omega

theorem applySingleQubitGate_bit0 {numQubits target : ℕ} (ht : target < numQubits)
    (m : Mat2) (v : StateVec) {k : ℕ} (hk : k < 2 ^ numQubits)
    (hb : k / 2 ^ target % 2 = 0) :
    applySingleQubitGate numQubits target m v k = m.a * v k + m.b * v (k + 2 ^ target) ∧
    applySingleQubitGate numQubits target m v (k + 2 ^ target)
      = m.c * v k + m.d * v (k + 2 ^ target) := by
  have hp : (k, k + 2 ^ target) ∈ singlePairs numQubits target :=
    (mem_singlePairs ht).mpr ⟨hk, hb, rfl⟩
  exact foldPairs_mem (gateOp m) _ (pairsOk_singlePairs ht) v _ hp

theorem applySingleQubitGate_apply {numQubits target : ℕ} (ht : target < numQubits)
    (m : Mat2) (v : StateVec) {k : ℕ} (hk : k < 2 ^ numQubits) :
    applySingleQubitGate numQubits target m v k =
      if k / 2 ^ target % 2 = 0 then m.a * v k + m.b * v (k + 2 ^ target)
      else m.c * v (k - 2 ^ target) + m.d * v k := by
  by_cases hb : k / 2 ^ target % 2 = 0
  · rw [if_pos hb]
    exact (applySingleQubitGate_bit0 ht m v hk hb).1
  · rw [if_neg hb]
    have hb1 : k / 2 ^ target % 2 = 1 := by
      have := Nat.mod_two_eq_zero_or_one (k / 2 ^ target)
      omega
    have hk2 : 2 ^ target ≤ k := bit_le_self hb1
    have hb0 : (k - 2 ^ target) / 2 ^ target % 2 = 0 := bit_sub_pow hb1
    have hpos : 0 < 2 ^ target := Nat.two_pow_pos target
    have hklt : k - 2 ^ target < 2 ^ numQubits := by omega
    have h := (applySingleQubitGate_bit0 ht m v hklt hb0).2
    rw [Nat.sub_add_cancel hk2] at h
    exact h

theorem applyControlledGate_notbit {numQubits control target : ℕ} (hct : control ≠ target)
    (m : Mat2) (v : StateVec) {k : ℕ} (hk : Nat.testBit k control = false) :
    applyControlledGate numQubits control target m v k = v k := by
  apply foldPairs_notmem
  intro p hp
  obtain ⟨h1, h2, h3, h4⟩ := mem_ctrlPairs.mp hp
  constructor
  · intro he
    rw [he, h2] at hk
    exact Bool.noConfusion hk
  · intro he
    have hb : Nat.testBit p.2 control = true := by
      rw [h4, testBit_add_pow_of_ne hct h3, h2]
    rw [he, hb] at hk
    exact Bool.noConfusion hk

theorem applyControlledGate_frame {numQubits control target : ℕ} (ht : target < numQubits)
    (m : Mat2) (v : StateVec) {k : ℕ} (hk : 2 ^ numQubits ≤ k) :
    applyControlledGate numQubits control target m v k = v k := by
  apply foldPairs_notmem
  intro p hp
  obtain ⟨h1, _, h3, h4⟩ := mem_ctrlPairs.mp hp
  have h5 : p.2 < 2 ^ numQubits := h4 ▸ add_pow_lt_of_bit_zero ht h1 h3
  omega

theorem applyControlledGate_bit1 {numQubits control target : ℕ} (ht : target < numQubits)
    (m : Mat2) (v : StateVec) {k : ℕ} (hk : k < 2 ^ numQubits)
    (hc : Nat.testBit k control = true) (hb : k / 2 ^ target % 2 = 0) :
    applyControlledGate numQubits control target m v k
      = m.a * v k + m.b * v (k + 2 ^ target) ∧
    applyControlledGate numQubits control target m v (k + 2 ^ target)
      = m.c * v k + m.d * v (k + 2 ^ target) := by
  have hp : (k, k + 2 ^ target) ∈ ctrlPairs numQubits control target :=
    mem_ctrlPairs.mpr ⟨hk, hc, hb, rfl⟩
  exact foldPairs_mem (gateOp m) _ pairsOk_ctrlPairs v _ hp

theorem applySwapGate_self (numQubits q : ℕ) (v : StateVec) :
    applySwapGate numQubits q q v = v := by
  have hnil : swapPairs numQubits q q = [] := by
    unfold swapPairs
    rw [show (List.range (2 ^ numQubits)).filter (swapCond q q) = [] from ?_]
    · rfl
    · rw [List.filter_eq_nil_iff]
      intro a _
      unfold swapCond
      simp
  unfold applySwapGate
  rw [hnil]
  rfl

theorem applySwapGate_frame {numQubits q1 q2 : ℕ} (h1 : q1 < numQubits) (h2 : q2 < numQubits)
    (v : StateVec) {k : ℕ} (hk : 2 ^ numQubits ≤ k) :
    applySwapGate numQubits q1 q2 v k = v k := by
  apply foldPairs_notmem
  intro p hp
  obtain ⟨hp1, _, _, hp4⟩ := mem_swapPairs.mp hp
  have hm : 2 ^ q1 ^^^ 2 ^ q2 < 2 ^ numQubits :=
    Nat.xor_lt_two_pow ((Nat.pow_lt_pow_iff_right (by norm_num)).mpr h1)
      ((Nat.pow_lt_pow_iff_right (by norm_num)).mpr h2)
  have hp2' : p.2 < 2 ^ numQubits := by
    rw [hp4, Nat.xor_assoc]
    exact Nat.xor_lt_two_pow hp1 hm
  omega

theorem applySwapGate_apply {numQubits q1 q2 : ℕ} (h1 : q1 < numQubits) (h2 : q2 < numQubits)
    (hne : q1 ≠ q2) (v : StateVec) {k : ℕ} (hk : k < 2 ^ numQubits) :
    applySwapGate numQubits q1 q2 v k =
      if Nat.testBit k q1 = Nat.testBit k q2 then v k
      else v (k ^^^ 2 ^ q1 ^^^ 2 ^ q2) := by
  have hmlt : 2 ^ q1 ^^^ 2 ^ q2 < 2 ^ numQubits :=
    Nat.xor_lt_two_pow ((Nat.pow_lt_pow_iff_right (by norm_num)).mpr h1)
      ((Nat.pow_lt_pow_iff_right (by norm_num)).mpr h2)
  by_cases hb : Nat.testBit k q1 = Nat.testBit k q2
  · rw [if_pos hb]
    apply foldPairs_notmem
    intro p hp
    obtain ⟨hp1, hpa, hpb, hp4⟩ := mem_swapPairs.mp hp
    constructor
    · intro he
      rw [he, hpa, hpb] at hb
      exact Bool.noConfusion hb
    · intro he
      have ha : Nat.testBit p.2 q1 = true := by
        rw [hp4, testBit_xor_mask_self (Ne.symm hne), hpa]
        rfl
      have hb' : Nat.testBit p.2 q2 = false := by
        rw [hp4, testBit_xor_mask_other hne, hpb]
        rfl
      rw [he, ha, hb'] at hb
      exact Bool.noConfusion hb
  · rw [if_neg hb]
    cases hbq1 : Nat.testBit k q1 with
    | false =>
      have hbq2 : Nat.testBit k q2 = true := by
        cases hbq2 : Nat.testBit k q2 with
        | false => exact absurd (hbq1.trans hbq2.symm) hb
        | true => rfl
      have hp : (k, k ^^^ 2 ^ q1 ^^^ 2 ^ q2) ∈ swapPairs numQubits q1 q2 :=
        mem_swapPairs.mpr ⟨hk, hbq1, hbq2, rfl⟩
      exact (foldPairs_mem swapOp _ (pairsOk_swapPairs hne) v _ hp).1
    | true =>
      have hbq2 : Nat.testBit k q2 = false := by
        cases hbq2 : Nat.testBit k q2 with
        | true => exact absurd (hbq1.trans hbq2.symm) hb
        | false => rfl
      set a := k ^^^ 2 ^ q1 ^^^ 2 ^ q2 with ha
      have haq1 : Nat.testBit a q1 = false := by
        rw [ha, testBit_xor_mask_self (Ne.symm hne), hbq1]
        rfl
      have haq2 : Nat.testBit a q2 = true := by
        rw [ha, testBit_xor_mask_other hne, hbq2]
        rfl
      have halt : a < 2 ^ numQubits := by
        rw [ha, Nat.xor_assoc]
        exact Nat.xor_lt_two_pow hk hmlt
      have hak : a ^^^ 2 ^ q1 ^^^ 2 ^ q2 = k := by
        rw [ha]
        exact xor_masks_invol k q1 q2
      have hp : (a, a ^^^ 2 ^ q1 ^^^ 2 ^ q2) ∈ swapPairs numQubits q1 q2 :=
        mem_swapPairs.mpr ⟨halt, haq1, haq2, rfl⟩
      have hval := (foldPairs_mem swapOp _ (pairsOk_swapPairs hne) v _ hp).2
      rw [hak] at hval
      exact hval

/-! ### Unitary matrices preserve the two-norm of an amplitude pair -/

theorem unitary_pair {m : Mat2} (hm : m.unitary) (x y : ℂ) :
    Complex.normSq (m.a * x + m.b * y) + Complex.normSq (m.c * x + m.d * y)
      = Complex.normSq x + Complex.normSq y := by
  obtain ⟨h1, h2, h3⟩ := hm
  have h3' : m.a * (starRingEnd ℂ) m.b + m.c * (starRingEnd ℂ) m.d = 0 := by
    have h := congrArg (starRingEnd ℂ) h3
    rw [map_add, map_mul, map_mul, map_zero, Complex.conj_conj, Complex.conj_conj] at h
    exact h
  have key : ((Complex.normSq (m.a * x + m.b * y) + Complex.normSq (m.c * x + m.d * y) : ℝ) : ℂ)
      = ((Complex.normSq x + Complex.normSq y : ℝ) : ℂ) := by
    push_cast
    rw [Complex.normSq_eq_conj_mul_self, Complex.normSq_eq_conj_mul_self,
      Complex.normSq_eq_conj_mul_self, Complex.normSq_eq_conj_mul_self]
    simp only [map_add, map_mul]
    linear_combination ((starRingEnd ℂ) x * x) * h1 + ((starRingEnd ℂ) y * y) * h2 +
      ((starRingEnd ℂ) x * y) * h3 + ((starRingEnd ℂ) y * x) * h3'
  exact_mod_cast key

/-! ### Splitting a sum over all indices into sums over bit-t pairs -/

theorem sum_pair_split {numQubits target : ℕ} (ht : target < numQubits) (q : ℕ → Bool)
    (hq : ∀ k, k / 2 ^ target % 2 = 0 → q (k + 2 ^ target) = q k) (F : ℕ → ℝ) :
    ∑ k in (Finset.range (2 ^ numQubits)).filter (fun k => q k = true), F k
      = ∑ k in (Finset.range (2 ^ numQubits)).filter
          (fun k => q k = true ∧ k / 2 ^ target % 2 = 0), (F k + F (k + 2 ^ target)) := by
  have hpos : 0 < 2 ^ target := Nat.two_pow_pos target
  rw [← Finset.sum_filter_add_sum_filter_not
      ((Finset.range (2 ^ numQubits)).filter (fun k => q k = true))
      (fun k => k / 2 ^ target % 2 = 0) F]
  rw [Finset.filter_filter, Finset.filter_filter, Finset.sum_add_distrib]
  congr 1
  apply Finset.sum_nbij' (fun k => k - 2 ^ target) (fun k => k + 2 ^ target)
  · intro a ha
    rw [Finset.mem_filter, Finset.mem_range] at ha ⊢
    obtain ⟨halt, haq, hab⟩ := ha
    have hb1 : a / 2 ^ target % 2 = 1 := by
      have := Nat.mod_two_eq_zero_or_one (a / 2 ^ target)
      omega
    have hle : 2 ^ target ≤ a := bit_le_self hb1
    have hb0 : (a - 2 ^ target) / 2 ^ target % 2 = 0 := bit_sub_pow hb1
    refine ⟨by omega, ?_, hb0⟩
    have := hq (a - 2 ^ target) hb0
    rw [Nat.sub_add_cancel hle] at this
    rw [← this]
    exact haq
  · intro a ha
    rw [Finset.mem_filter, Finset.mem_range] at ha ⊢
    obtain ⟨halt, haq, hab⟩ := ha
    have hb1 : (a + 2 ^ target) / 2 ^ target % 2 = 1 := bit_add_pow hab
    refine ⟨add_pow_lt_of_bit_zero ht halt hab, ?_, by omega⟩
    rw [hq a hab]
    exact haq
  · intro a ha
    rw [Finset.mem_filter, Finset.mem_range] at ha
    obtain ⟨_, _, hab⟩ := ha
    have hb1 : a / 2 ^ target % 2 = 1 := by
      have := Nat.mod_two_eq_zero_or_one (a / 2 ^ target)
      omega
    have hle : 2 ^ target ≤ a := bit_le_self hb1
    omega
  · intro a _
    omega
  · intro a ha
    rw [Finset.mem_filter, Finset.mem_range] at ha
    obtain ⟨_, _, hab⟩ := ha
    have hb1 : a / 2 ^ target % 2 = 1 := by
      have := Nat.mod_two_eq_zero_or_one (a / 2 ^ target)
      omega
    have hle : 2 ^ target ≤ a := bit_le_self hb1
    rw [Nat.sub_add_cancel hle]

theorem sum_range_pair_split {numQubits target : ℕ} (ht : target < numQubits) (F : ℕ → ℝ) :
    ∑ k in Finset.range (2 ^ numQubits), F k
      = ∑ k in (Finset.range (2 ^ numQubits)).filter (fun k => k / 2 ^ target % 2 = 0),
          (F k + F (k + 2 ^ target)) := by
  have h := sum_pair_split ht (fun _ => true) (fun _ _ => rfl) F
  simpa using h

/-! ### Norm preservation of each operation -/

theorem normSqSum_applySingle {numQubits target : ℕ} (ht : target < numQubits)
    {m : Mat2} (hm : m.unitary) (v : StateVec) :
    normSqSum numQubits (applySingleQubitGate numQubits target m v)
      = normSqSum numQubits v := by
  unfold normSqSum
  rw [sum_range_pair_split ht, sum_range_pair_split ht (fun i => Complex.normSq (v i))]
  apply Finset.sum_congr rfl
  intro k hk
  rw [Finset.mem_filter, Finset.mem_range] at hk
  obtain ⟨hklt, hkbit⟩ := hk
  rw [(applySingleQubitGate_bit0 ht m v hklt hkbit).1,
    (applySingleQubitGate_bit0 ht m v hklt hkbit).2]
  exact unitary_pair hm (v k) (v (k + 2 ^ target))

theorem normSqSum_applyControlled {numQubits control target : ℕ} (ht : target < numQubits)
    (hct : control ≠ target) {m : Mat2} (hm : m.unitary) (v : StateVec) :
    normSqSum numQubits (applyControlledGate numQubits control target m v)
      = normSqSum numQubits v := by
  unfold normSqSum
  rw [← Finset.sum_filter_add_sum_filter_not (Finset.range (2 ^ numQubits))
      (fun k => Nat.testBit k control = true)
      (fun i => Complex.normSq (applyControlledGate numQubits control target m v i))]
  rw [← Finset.sum_filter_add_sum_filter_not (Finset.range (2 ^ numQubits))
      (fun k => Nat.testBit k control = true) (fun i => Complex.normSq (v i))]
  congr 1
  · rw [sum_pair_split ht (fun k => Nat.testBit k control)
        (fun k hk0 => testBit_add_pow_of_ne hct hk0),
      sum_pair_split ht (fun k => Nat.testBit k control)
        (fun k hk0 => testBit_add_pow_of_ne hct hk0) (fun i => Complex.normSq (v i))]
    apply Finset.sum_congr rfl
    intro k hk
    rw [Finset.mem_filter, Finset.mem_range] at hk
    obtain ⟨hklt, hktb, hkbit⟩ := hk
    rw [(applyControlledGate_bit1 ht m v hklt hktb hkbit).1,
      (applyControlledGate_bit1 ht m v hklt hktb hkbit).2]
    exact unitary_pair hm (v k) (v (k + 2 ^ target))
  · apply Finset.sum_congr rfl
    intro k hk
    rw [Finset.mem_filter] at hk
    have hfalse : Nat.testBit k control = false := by
      simpa using hk.2
    rw [applyControlledGate_notbit hct m v hfalse]

theorem normSqSum_applySwap {numQubits q1 q2 : ℕ} (h1 : q1 < numQubits) (h2 : q2 < numQubits)
    (v : StateVec) :
    normSqSum numQubits (applySwapGate numQubits q1 q2 v) = normSqSum numQubits v := by
  by_cases hne : q1 = q2
  · subst hne
    rw [applySwapGate_self]
  · unfold normSqSum
    have hmlt : 2 ^ q1 ^^^ 2 ^ q2 < 2 ^ numQubits :=
      Nat.xor_lt_two_pow ((Nat.pow_lt_pow_iff_right (by norm_num)).mpr h1)
        ((Nat.pow_lt_pow_iff_right (by norm_num)).mpr h2)
    have key : ∀ k ∈ Finset.range (2 ^ numQubits),
        Complex.normSq (applySwapGate numQubits q1 q2 v k)
          = Complex.normSq (v (if Nat.testBit k q1 = Nat.testBit k q2 then k
              else k ^^^ 2 ^ q1 ^^^ 2 ^ q2)) := by
      intro k hk
      rw [Finset.mem_range] at hk
      rw [applySwapGate_apply h1 h2 hne v hk]
      by_cases hb : Nat.testBit k q1 = Nat.testBit k q2 <;> simp [hb]
    rw [Finset.sum_congr rfl key]
    have hσmem : ∀ a ∈ Finset.range (2 ^ numQubits),
        (if Nat.testBit a q1 = Nat.testBit a q2 then a else a ^^^ 2 ^ q1 ^^^ 2 ^ q2)
          ∈ Finset.range (2 ^ numQubits) := by
      intro a ha
      rw [Finset.mem_range] at ha ⊢
      by_cases hb : Nat.testBit a q1 = Nat.testBit a q2
      · simpa [hb] using ha
      · rw [if_neg hb, Nat.xor_assoc]
        exact Nat.xor_lt_two_pow ha hmlt
    have hσσ : ∀ a ∈ Finset.range (2 ^ numQubits),
        (if Nat.testBit (if Nat.testBit a q1 = Nat.testBit a q2 then a
              else a ^^^ 2 ^ q1 ^^^ 2 ^ q2) q1
            = Nat.testBit (if Nat.testBit a q1 = Nat.testBit a q2 then a
              else a ^^^ 2 ^ q1 ^^^ 2 ^ q2) q2
          then (if Nat.testBit a q1 = Nat.testBit a q2 then a else a ^^^ 2 ^ q1 ^^^ 2 ^ q2)
          else (if Nat.testBit a q1 = Nat.testBit a q2 then a
              else a ^^^ 2 ^ q1 ^^^ 2 ^ q2) ^^^ 2 ^ q1 ^^^ 2 ^ q2) = a := by
      intro a _
      by_cases hb : Nat.testBit a q1 = Nat.testBit a q2
      · simp [hb]
      · rw [if_neg hb]
        have ha1 : Nat.testBit (a ^^^ 2 ^ q1 ^^^ 2 ^ q2) q1 = !(Nat.testBit a q1) :=
          testBit_xor_mask_self (Ne.symm hne)
        have ha2 : Nat.testBit (a ^^^ 2 ^ q1 ^^^ 2 ^ q2) q2 = !(Nat.testBit a q2) :=
          testBit_xor_mask_other hne
        have hbne : ¬(Nat.testBit (a ^^^ 2 ^ q1 ^^^ 2 ^ q2) q1
            = Nat.testBit (a ^^^ 2 ^ q1 ^^^ 2 ^ q2) q2) := by
          rw [ha1, ha2]
          intro hcon
          apply hb
          cases h1' : Nat.testBit a q1 <;> cases h2' : Nat.testBit a q2 <;>
            rw [h1', h2'] at hcon <;> simp at hcon <;> rfl
        rw [if_neg hbne]
        exact xor_masks_invol a q1 q2
    exact Finset.sum_nbij'
      (fun k => if Nat.testBit k q1 = Nat.testBit k q2 then k else k ^^^ 2 ^ q1 ^^^ 2 ^ q2)
      (fun k => if Nat.testBit k q1 = Nat.testBit k q2 then k else k ^^^ 2 ^ q1 ^^^ 2 ^ q2)
      hσmem hσmem hσσ hσσ (fun a _ => rfl)

/-! ### The measurement collapse and its renormalization -/

theorem prob1_nonneg (numQubits target : ℕ) (v : StateVec) : 0 ≤ prob1 numQubits target v := by
  unfold prob1
  apply Finset.sum_nonneg
  intro i _
  by_cases h : Nat.testBit i target <;> simp [h, Complex.normSq_nonneg]

theorem measResult_one_iff {numQubits target : ℕ} {v : StateVec} {r : ℝ} :
    measResult numQubits target v r = 1 ↔ r < prob1 numQubits target v := by
  unfold measResult
  by_cases h : r < prob1 numQubits target v <;> simp [h]

theorem collapseNorm_pos {numQubits target : ℕ} (v : StateVec) {r : ℝ}
    (hr0 : 0 ≤ r) (hr1 : r < 1) : 0 < collapseNorm numQubits target v r := by
  unfold collapseNorm
  by_cases h : measResult numQubits target v r = 1
  · rw [if_pos h]
    have := measResult_one_iff.mp h
    exact Real.sqrt_pos.mpr (by linarith)
  · rw [if_neg h]
    have hn : ¬ r < prob1 numQubits target v := fun hc => h (measResult_one_iff.mpr hc)
    push_neg at hn
    exact Real.sqrt_pos.mpr (by linarith)

theorem measureQubit_apply {numQubits target : ℕ} (v : StateVec) (r : ℝ) {k : ℕ}
    (hk : k < 2 ^ numQubits) :
    (measureQubit numQubits target v r).2 k
      = if (if Nat.testBit k target then 1 else 0) = measResult numQubits target v r
        then (⟨(v k).re / collapseNorm numQubits target v r,
               (v k).im / collapseNorm numQubits target v r⟩ : ℂ)
        else 0 := by
  unfold measureQubit
  simp [hk]

theorem normSq_div_real (z : ℂ) (nm : ℝ) :
    Complex.normSq (⟨z.re / nm, z.im / nm⟩ : ℂ) = Complex.normSq z / nm ^ 2 := by
  rw [Complex.normSq_mk, Complex.normSq_apply, pow_two]
  rw [div_mul_div_comm, div_mul_div_comm, div_add_div_same]

theorem normSqSum_measure {numQubits target : ℕ} (v : StateVec)
    {r : ℝ} (hr0 : 0 ≤ r) (hr1 : r < 1) (hv : normSqSum numQubits v = 1) :
    normSqSum numQubits (measureQubit numQubits target v r).2 = 1 := by
  have hstep : normSqSum numQubits (measureQubit numQubits target v r).2
      = ∑ k in Finset.range (2 ^ numQubits),
          (if (if Nat.testBit k target then 1 else 0) = measResult numQubits target v r
            then Complex.normSq (v k) / collapseNorm numQubits target v r ^ 2 else 0) := by
    unfold normSqSum
    apply Finset.sum_congr rfl
    intro k hk
    rw [Finset.mem_range] at hk
    rw [measureQubit_apply v r hk]
    by_cases hb : (if Nat.testBit k target then 1 else 0 : ℕ) = measResult numQubits target v r
    · rw [if_pos hb, if_pos hb, normSq_div_real]
    · rw [if_neg hb, if_neg hb, Complex.normSq_zero]
  have hsplit_v : normSqSum numQubits v = prob1 numQubits target v
      + ∑ k in Finset.range (2 ^ numQubits),
          (if Nat.testBit k target then 0 else Complex.normSq (v k)) := by
    unfold normSqSum prob1
    rw [← Finset.sum_add_distrib]
    apply Finset.sum_congr rfl
    intro k _
    by_cases h : Nat.testBit k target <;> simp [h]
  have hcases : measResult numQubits target v r = 1 ∨ measResult numQubits target v r = 0 := by
    unfold measResult
    by_cases h : r < prob1 numQubits target v <;> simp [h]
  rcases hcases with hres | hres
  · have hlt : r < prob1 numQubits target v := measResult_one_iff.mp hres
    have hppos : 0 < prob1 numQubits target v := lt_of_le_of_lt hr0 hlt
    have hnm2 : collapseNorm numQubits target v r ^ 2 = prob1 numQubits target v := by
      unfold collapseNorm
      rw [hres, if_pos rfl]
      exact Real.sq_sqrt (prob1_nonneg _ _ _)
    rw [hstep]
    have htrans : (∑ k in Finset.range (2 ^ numQubits),
          (if (if Nat.testBit k target then 1 else 0) = measResult numQubits target v r
            then Complex.normSq (v k) / collapseNorm numQubits target v r ^ 2 else 0))
        = (∑ k in Finset.range (2 ^ numQubits),
            (if Nat.testBit k target then Complex.normSq (v k) else 0))
          / collapseNorm numQubits target v r ^ 2 := by
      rw [Finset.sum_div]
      apply Finset.sum_congr rfl
      intro k _
      rw [hres]
      by_cases h : Nat.testBit k target <;> simp [h]
    rw [htrans]
    have hpd : (∑ k in Finset.range (2 ^ numQubits),
        (if Nat.testBit k target then Complex.normSq (v k) else 0))
        = prob1 numQubits target v := rfl
    rw [hpd, hnm2]
    exact div_self (ne_of_gt hppos)
  · have hne1 : measResult numQubits target v r ≠ 1 := by
      rw [hres]
      norm_num
    have hnlt : ¬ r < prob1 numQubits target v := fun hc => hne1 (measResult_one_iff.mpr hc)
    push_neg at hnlt
    have h1p : 0 < 1 - prob1 numQubits target v := by linarith
    have hnm2 : collapseNorm numQubits target v r ^ 2 = 1 - prob1 numQubits target v := by
      unfold collapseNorm
      rw [hres, if_neg (by norm_num)]
      exact Real.sq_sqrt (by linarith)
    rw [hstep]
    have htrans : (∑ k in Finset.range (2 ^ numQubits),
          (if (if Nat.testBit k target then 1 else 0) = measResult numQubits target v r
            then Complex.normSq (v k) / collapseNorm numQubits target v r ^ 2 else 0))
        = (∑ k in Finset.range (2 ^ numQubits),
            (if Nat.testBit k target then 0 else Complex.normSq (v k)))
          / collapseNorm numQubits target v r ^ 2 := by
      rw [Finset.sum_div]
      apply Finset.sum_congr rfl
      intro k _
      rw [hres]
      by_cases h : Nat.testBit k target <;> simp [h]
    rw [htrans]
    have hS : (∑ k in Finset.range (2 ^ numQubits),
        (if Nat.testBit k target then 0 else Complex.normSq (v k)))
        = 1 - prob1 numQubits target v := by
      linarith
    rw [hS, hnm2]
    exact div_self (ne_of_gt h1p)

/-! ### Composing two single-qubit gate applications on the same target -/

theorem applySingleQubitGate_comp {numQubits target : ℕ} (ht : target < numQubits)
    (m2 m1 : Mat2) (v : StateVec) :
    applySingleQubitGate numQubits target m2 (applySingleQubitGate numQubits target m1 v)
      = applySingleQubitGate numQubits target (matMul m2 m1) v := by
  funext k
  rcases Nat.lt_or_ge k (2 ^ numQubits) with hk | hk
  · by_cases hb : k / 2 ^ target % 2 = 0
    · have w := applySingleQubitGate_bit0 ht m1 v hk hb
      have w2 := applySingleQubitGate_bit0 ht m2
        (applySingleQubitGate numQubits target m1 v) hk hb
      have w3 := applySingleQubitGate_bit0 ht (matMul m2 m1) v hk hb
      rw [w2.1, w.1, w.2, w3.1]
      simp only [matMul]
      ring
    · have hb1 : k / 2 ^ target % 2 = 1 := by
        have := Nat.mod_two_eq_zero_or_one (k / 2 ^ target)
        omega
      have hle : 2 ^ target ≤ k := bit_le_self hb1
      have hb0 : (k - 2 ^ target) / 2 ^ target % 2 = 0 := bit_sub_pow hb1
      have hpos : 0 < 2 ^ target := Nat.two_pow_pos target
      have hklt : k - 2 ^ target < 2 ^ numQubits := by omega
      have w := applySingleQubitGate_bit0 ht m1 v hklt hb0
      have w2 := applySingleQubitGate_bit0 ht m2
        (applySingleQubitGate numQubits target m1 v) hklt hb0
      have w3 := applySingleQubitGate_bit0 ht (matMul m2 m1) v hklt hb0
      rw [Nat.sub_add_cancel hle] at w w2 w3
      rw [w2.2, w.1, w.2, w3.2]
      simp only [matMul]
      ring
  · rw [applySingleQubitGate_frame ht m2 _ hk, applySingleQubitGate_frame ht m1 v hk,
      applySingleQubitGate_frame ht (matMul m2 m1) v hk]

theorem applySingleQubitGate_id {numQubits target : ℕ} (ht : target < numQubits)
    (v : StateVec) : applySingleQubitGate numQubits target iMat v = v := by
  funext k
  rcases Nat.lt_or_ge k (2 ^ numQubits) with hk | hk
  · rw [applySingleQubitGate_apply ht iMat v hk]
    by_cases hb : k / 2 ^ target % 2 = 0
    · rw [if_pos hb]
      simp [iMat]
    · rw [if_neg hb]
      simp [iMat]
  · exact applySingleQubitGate_frame ht iMat v hk

theorem matMul_sdg_s : matMul sdgMat sMat = iMat := by
  unfold matMul sdgMat sMat iMat
  rw [Mat2.mk.injEq]
  refine ⟨?_, ?_, ?_, ?_⟩ <;>
    (apply Complex.ext <;> simp [Complex.mul_re, Complex.mul_im])

theorem matMul_tdg_t : matMul tdgMat tMat = iMat := by
  have h2 : Real.sqrt 2 * Real.sqrt 2 = 2 := Real.mul_self_sqrt (by norm_num)
  unfold matMul tdgMat tMat iMat
  rw [Mat2.mk.injEq]
  refine ⟨?_, ?_, ?_, ?_⟩ <;>
    (apply Complex.ext <;>
      (simp [Complex.mul_re, Complex.mul_im]
       try rw [div_mul_div_comm, h2]
       try norm_num))

theorem matMul_rx (θ : ℝ) : matMul (createRx (-θ)) (createRx θ) = iMat := by
  have hc : Real.cos (-θ / 2) = Real.cos (θ / 2) := by
    rw [neg_div, Real.cos_neg]
  have hs : Real.sin (-θ / 2) = -Real.sin (θ / 2) := by
    rw [neg_div, Real.sin_neg]
  have hcs := Real.sin_sq_add_cos_sq (θ / 2)
  unfold matMul createRx iMat
  rw [hc, hs, Mat2.mk.injEq]
  refine ⟨?_, ?_, ?_, ?_⟩ <;>
    (apply Complex.ext <;> (simp [Complex.mul_re, Complex.mul_im]; try nlinarith [hcs]))

/-! ### The stable column sort shared by both execution paths -/

theorem gateLE_trans : ∀ a b c : GateOp, gateLE a b → gateLE b c → gateLE a c := by
  intro a b c hab hbc
  unfold gateLE at *
  simp only [decide_eq_true_eq] at *
  omega

theorem gateLE_total : ∀ a b : GateOp, (gateLE a b || gateLE b a) = true := by
  intro a b
  unfold gateLE
  rcases le_total a.column b.column with h | h <;> simp [h]

theorem execOrder_sorted (c : Circuit) :
    (execOrder c).Pairwise (fun a b => a.column ≤ b.column) := by
  have h := List.sorted_mergeSort gateLE_trans gateLE_total c.gates
  exact h.imp (fun {a b} hab => by simpa [gateLE] using hab)

theorem execOrder_perm (c : Circuit) : List.Perm (execOrder c) c.gates :=
  List.mergeSort_perm c.gates gateLE

theorem mergeSort_filter_stable (l : List GateOp) (k : ℤ) :
    (l.mergeSort gateLE).filter (fun g => decide (g.column = k))
      = l.filter (fun g => decide (g.column = k)) := by
  have hpw : (l.filter (fun g => decide (g.column = k))).Pairwise
      (fun a b => gateLE a b = true) := by
    apply List.pairwise_of_forall_mem_list
    intro a ha b hb
    rw [List.mem_filter] at ha hb
    have ha2 : a.column = k := by simpa using ha.2
    have hb2 : b.column = k := by simpa using hb.2
    unfold gateLE
    simp [ha2, hb2]
  have hsub : List.Sublist (l.filter (fun g => decide (g.column = k))) (l.mergeSort gateLE) :=
    List.sublist_mergeSort gateLE_trans gateLE_total hpw (List.filter_sublist l)
  have hsub2 := hsub.filter (fun g => decide (g.column = k))
  have hself : (l.filter (fun g => decide (g.column = k))).filter
      (fun g => decide (g.column = k)) = l.filter (fun g => decide (g.column = k)) :=
    List.filter_eq_self.mpr (fun a ha => (List.mem_filter.mp ha).2)
  rw [hself] at hsub2
  have hperm := (List.mergeSort_perm l gateLE).filter (fun g => decide (g.column = k))
  exact (hsub2.eq_of_length (hperm.length_eq.symm)).symm

theorem execOrder_stable (c : Circuit) (k : ℤ) :
    (execOrder c).filter (fun g => decide (g.column = k))
      = c.gates.filter (fun g => decide (g.column = k)) :=
  mergeSort_filter_stable c.gates k

theorem svOrder_sorted (c : Circuit) :
    (svOrder c).Pairwise (fun a b => a.column ≤ b.column) := by
  have h := List.sorted_mergeSort gateLE_trans gateLE_total
    (c.gates.filter (fun g => !(g.gateId = "M" : Bool)))
  exact h.imp (fun {a b} hab => by simpa [gateLE] using hab)

theorem svOrder_perm (c : Circuit) :
    List.Perm (svOrder c) (c.gates.filter (fun g => !(g.gateId = "M" : Bool))) :=
  List.mergeSort_perm _ gateLE

theorem svOrder_stable (c : Circuit) (k : ℤ) :
    (svOrder c).filter (fun g => decide (g.column = k))
      = (c.gates.filter (fun g => !(g.gateId = "M" : Bool))).filter
          (fun g => decide (g.column = k)) :=
  mergeSort_filter_stable _ k

theorem svOrder_no_measure (c : Circuit) : ∀ g ∈ svOrder c, g.gateId ≠ "M" := by
  intro g hg
  unfold svOrder at hg
  rw [List.mem_mergeSort, List.mem_filter] at hg
  simpa using hg.2

/-! ### Dispatch of the gate loops -/

theorem applyControlledGateZ_cast (numQubits : ℕ) (c : ℕ) (target : ℕ) (m : Mat2)
    (v : StateVec) :
    applyControlledGateZ numQubits (c : ℤ) target m v
      = applyControlledGate numQubits c target m v := by
  unfold applyControlledGateZ
  rw [if_pos (Int.natCast_nonneg c)]
  simp

theorem simStep_cnot_default (numQubits : ℕ) (rho : ℕ → ℝ) (st : SimSt) (g : GateOp)
    (hid : g.gateId = "CNOT") (hc : g.control = none) :
    simStep numQubits rho st g
      = { st with v := applyControlledGateZ numQubits ((g.target : ℤ) - 1) g.target xMat st.v } := by
  unfold simStep
  rw [hid, if_neg (by decide), if_pos rfl, hc]

theorem simStep_cnot_some (numQubits : ℕ) (rho : ℕ → ℝ) (st : SimSt) (g : GateOp) (c : ℕ)
    (hid : g.gateId = "CNOT") (hc : g.control = some c) :
    simStep numQubits rho st g
      = { st with v := applyControlledGateZ numQubits (c : ℤ) g.target xMat st.v } := by
  unfold simStep
  rw [hid, if_neg (by decide), if_pos rfl, hc]

theorem simStep_cz_default (numQubits : ℕ) (rho : ℕ → ℝ) (st : SimSt) (g : GateOp)
    (hid : g.gateId = "CZ") (hc : g.control = none) :
    simStep numQubits rho st g
      = { st with v := applyControlledGateZ numQubits ((g.target : ℤ) - 1) g.target zMat st.v } := by
  unfold simStep
  rw [hid, if_neg (by decide), if_neg (by decide), if_pos rfl, hc]

theorem simStep_swap_default (numQubits : ℕ) (rho : ℕ → ℝ) (st : SimSt) (g : GateOp)
    (hid : g.gateId = "SWAP") (hc : g.control = none) :
    simStep numQubits rho st g
      = { st with v := applySwapGate numQubits g.target (g.target + 1) st.v } := by
  unfold simStep
  rw [hid, if_neg (by decide), if_neg (by decide), if_neg (by decide), if_pos rfl, hc]
  rfl

theorem svStep_cnot_default (numQubits : ℕ) (v : StateVec) (g : GateOp)
    (hid : g.gateId = "CNOT") (hc : g.control = none) :
    svStep numQubits v g
      = applyControlledGateZ numQubits ((g.target : ℤ) - 1) g.target xMat v := by
  unfold svStep
  rw [hid, if_pos rfl, hc]

theorem svStep_cz_default (numQubits : ℕ) (v : StateVec) (g : GateOp)
    (hid : g.gateId = "CZ") (hc : g.control = none) :
    svStep numQubits v g
      = applyControlledGateZ numQubits ((g.target : ℤ) - 1) g.target zMat v := by
  unfold svStep
  rw [hid, if_neg (by decide), if_pos rfl, hc]

theorem svStep_swap_default (numQubits : ℕ) (v : StateVec) (g : GateOp)
    (hid : g.gateId = "SWAP") (hc : g.control = none) :
    svStep numQubits v g = applySwapGate numQubits g.target (g.target + 1) v := by
  unfold svStep
  rw [hid, if_neg (by decide), if_neg (by decide), if_pos rfl, hc]
  rfl

/-! ### Concrete evaluations used by the claim analyses -/

theorem GATE_MATRICES_unknown : GATE_MATRICES "FOO" = none := by
  rfl

theorem getGateMatrix_unknown_eval : getGateMatrix "FOO" none none = iMat := by
  rfl

theorem ctrlPairs_self (numQubits control : ℕ) :
    ctrlPairs numQubits control control = [] := by
  unfold ctrlPairs
  have h : (List.range (2 ^ numQubits)).filter
      (fun i => Nat.testBit i control && !Nat.testBit i control) = [] :=
    List.filter_eq_nil_iff.mpr (fun a _ => by simp)
  rw [h]
  rfl

theorem applyControlledGate_self (numQubits control : ℕ) (m : Mat2) (v : StateVec) :
    applyControlledGate numQubits control control m v = v := by
  unfold applyControlledGate
  rw [ctrlPairs_self]
  rfl

theorem prob1_initState (numQubits target : ℕ) : prob1 numQubits target initState = 0 := by
  unfold prob1
  apply Finset.sum_eq_zero
  intro i _
  by_cases h0 : i = 0
  · subst h0
    simp [Nat.zero_testBit]
  · simp [initState, h0]

theorem measResult_initState (numQubits target : ℕ) {r : ℝ} (hr : 0 ≤ r) :
    measResult numQubits target initState r = 0 := by
  unfold measResult
  rw [prob1_initState, if_neg (by linarith)]

theorem measureQubit_fst (numQubits target : ℕ) (v : StateVec) (r : ℝ) :
    (measureQubit numQubits target v r).1 = measResult numQubits target v r := rfl

theorem bitstring_one (f : ℕ → ℕ) (h : f 0 = 0) : bitstring 1 f = "0" := by
  unfold bitstring
  rw [show List.range 1 = [0] by decide]
  rw [List.map_cons, List.map_nil, h]
  rfl

theorem simulateOnce_cInvalid (cur : ℕ) :
    simulateOnce cInvalid rhoHalf cur = ("0", cur + 1) := by
  have h1 : execOrder cInvalid = [gCNOT00] := by
    show List.mergeSort [gCNOT00] gateLE = [gCNOT00]
    exact List.mergeSort_singleton gCNOT00
  have hr0 : (0 : ℝ) ≤ rhoHalf cur := by norm_num [rhoHalf]
  simp only [simulateOnce, h1, List.foldl_cons, List.foldl_nil]
  rw [simStep_cnot_some _ rhoHalf _ gCNOT00 0 rfl rfl]
  simp only [cInvalid, gCNOT00]
  rw [applyControlledGateZ_cast, applyControlledGate_self]
  unfold finalMeasure
  rw [show List.range 1 = [0] by decide, List.foldl_cons, List.foldl_nil]
  simp [measureQubit_fst, measResult_initState 1 0 hr0, bitstring_one]

theorem executeCircuitCounts_cInvalid :
    executeCircuitCounts cInvalid 3 rhoHalf "0" = 3 := by
  have h0 : simulateOnce cInvalid rhoHalf 0 = ("0", 1) := by
    simpa using simulateOnce_cInvalid 0
  have h1 : simulateOnce cInvalid rhoHalf 1 = ("0", 2) := by
    simpa using simulateOnce_cInvalid 1
  have h2 : simulateOnce cInvalid rhoHalf 2 = ("0", 3) := by
    simpa using simulateOnce_cInvalid 2
  unfold executeCircuitCounts
  rw [show List.range 3 = [0, 1, 2] by decide]
  simp only [List.foldl_cons, List.foldl_nil]
  simp [h0, h1, h2, Function.update_apply]

theorem svStep_single (numQubits : ℕ) (v : StateVec) (g : GateOp)
    (h1 : ¬ g.gateId = "CNOT") (h2 : ¬ g.gateId = "CZ") (h3 : ¬ g.gateId = "SWAP") :
    svStep numQubits v g
      = applySingleQubitGate numQubits g.target (getGateMatrix g.gateId g.angle g.angles) v := by
  unfold svStep
  rw [if_neg h1, if_neg h2, if_neg h3]

theorem svOrder_cFoo : svOrder cFoo = [gFoo] := by
  unfold svOrder cFoo
  rw [show List.filter (fun g => !(g.gateId = "M" : Bool)) [gFoo] = [gFoo] by simp [gFoo]]
  exact List.mergeSort_singleton gFoo

theorem getStatevector_cFoo (rho : ℕ → ℝ) : (getStatevector cFoo rho).1 0 = 1 := by
  simp only [getStatevector, svOrder_cFoo, List.foldl_cons, List.foldl_nil]
  show (svStep 1 initState gFoo 0).re = 1
  rw [svStep_single 1 initState gFoo (by decide) (by decide) (by decide)]
  show ((applySingleQubitGate 1 0 (getGateMatrix "FOO" none none) initState) 0).re = 1
  rw [getGateMatrix_unknown_eval, applySingleQubitGate_id (by norm_num : (0:ℕ) < 1)]
  simp [initState]

theorem prob1_vtiny : prob1 1 0 vtiny = ((2 : ℝ) ^ (120 : ℕ))⁻¹ := by
  unfold prob1
  rw [show (2:ℕ) ^ 1 = 2 by norm_num, Finset.sum_range_succ, Finset.sum_range_one]
  rw [if_neg (by decide), if_pos (by decide), zero_add]
  rw [show vtiny 1 = Complex.ofReal (((2 : ℝ) ^ (60 : ℕ))⁻¹) from rfl,
    Complex.normSq_ofReal]
  rw [← mul_inv, ← pow_add]

theorem measResult_vtiny : measResult 1 0 vtiny 0 = 1 := by
  unfold measResult
  rw [prob1_vtiny, if_pos (by positivity)]

theorem collapseNorm_vtiny : collapseNorm 1 0 vtiny 0 = ((2 : ℝ) ^ (60 : ℕ))⁻¹ := by
  unfold collapseNorm
  rw [measResult_vtiny, if_pos rfl, prob1_vtiny]
  rw [show ((2:ℝ) ^ (120:ℕ))⁻¹ = (((2:ℝ) ^ (60:ℕ))⁻¹) ^ 2 by
    rw [inv_pow, ← pow_mul]]
  exact Real.sqrt_sq (by positivity)

theorem measureQubit_vtiny : (measureQubit 1 0 vtiny 0).2 1 = 1 := by
  rw [measureQubit_apply vtiny 0 (by norm_num : (1:ℕ) < 2 ^ 1)]
  rw [show Nat.testBit 1 0 = true by decide, measResult_vtiny, collapseNorm_vtiny]
  rw [if_pos rfl]
  apply Complex.ext
  · show (vtiny 1).re / ((2 : ℝ) ^ (60 : ℕ))⁻¹ = 1
    rw [show vtiny 1 = Complex.ofReal (((2 : ℝ) ^ (60 : ℕ))⁻¹) from rfl,
      Complex.ofReal_re, div_self (by positivity)]
  · show (vtiny 1).im / ((2 : ℝ) ^ (60 : ℕ))⁻¹ = 0
    rw [show vtiny 1 = Complex.ofReal (((2 : ℝ) ^ (60 : ℕ))⁻¹) from rfl,
      Complex.ofReal_im, zero_div]

theorem svOrder_cHM : svOrder cHM = [gH0] := by
  unfold svOrder cHM
  rw [show List.filter (fun g => !(g.gateId = "M" : Bool)) [gH0, gM0] = [gH0] by
    simp [gH0, gM0]]
  exact List.mergeSort_singleton gH0

theorem xMat_unitary : xMat.unitary := by
  unfold Mat2.unitary xMat
  norm_num

theorem normSqSum_initState (numQubits : ℕ) : normSqSum numQubits initState = 1 := by
  unfold normSqSum
  rw [show Finset.range (2 ^ numQubits) = insert 0 ((Finset.range (2 ^ numQubits)).erase 0) by
    rw [Finset.insert_erase (Finset.mem_range.mpr (Nat.two_pow_pos numQubits))]]
  rw [Finset.sum_insert (Finset.not_mem_erase 0 _)]
  rw [show Complex.normSq (initState 0) = 1 by simp [initState]]
  rw [Finset.sum_eq_zero fun i hi => by
    rw [show initState i = 0 by simp [initState, Finset.ne_of_mem_erase hi]]
    exact Complex.normSq_zero]
  norm_num

/-! ## Claim theorems -/

/-- C1, counterexample.  The claim asserts that `measureQubit` clamps a
numerically near-zero outcome probability in the renormalization
denominator.  The code contains no clamp: on the state `vtiny`, whose
outcome-1 probability is `2⁻¹²⁰` (far below every floating-point working
precision, hence "numerically ≈ 0"), the drawn outcome is 1 and the
denominator used is exactly `√(2⁻¹²⁰) = 2⁻⁶⁰` — the raw square root of the
outcome probability — so the surviving amplitude `2⁻⁶⁰` is divided by it in
full, amplified by `2⁶⁰` to exactly `1`.  No clamping occurs anywhere. -/
theorem measure_no_clamp_counterexample :
    prob1 1 0 vtiny = ((2 : ℝ) ^ (120 : ℕ))⁻¹ ∧
    collapseNorm 1 0 vtiny 0 = ((2 : ℝ) ^ (60 : ℕ))⁻¹ ∧
    (measureQubit 1 0 vtiny 0).2 1 = 1 :=
  ⟨prob1_vtiny, collapseNorm_vtiny, measureQubit_vtiny⟩

/-- C1, amended.  The renormalization denominator of `measureQubit` is the
unclamped `√(p_outcome)`; division by zero is nevertheless impossible,
because the outcome is drawn as `r < prob1` with `r ∈ [0, 1)`: outcome 1
forces `prob1 > r ≥ 0`, and outcome 0 forces `1 - prob1 ≥ 1 - r > 0`.  The
denominator is therefore strictly positive for every state and target, and
in exact arithmetic every amplitude after the collapse is a well-defined
finite number. -/
theorem measure_collapse_norm_pos :
    ∀ (numQubits target : ℕ) (v : StateVec) (r : ℝ),
      0 ≤ r → r < 1 → 0 < collapseNorm numQubits target v r :=
  fun _ _ v _ hr0 hr1 => collapseNorm_pos v hr0 hr1

/-- Witness for the amended C1 at a concrete input. -/
theorem measure_collapse_norm_pos_witness :
    (0 : ℝ) ≤ 1 / 2 ∧ (1 : ℝ) / 2 < 1 ∧ 0 < collapseNorm 1 0 initState (1 / 2) :=
  ⟨by norm_num, by norm_num,
    measure_collapse_norm_pos 1 0 initState (1 / 2) (by norm_num) (by norm_num)⟩

/-- C2.  The claim (and the spec) require an unrecognized gate identifier
to be rejected as a validation error.  `getGateMatrix` instead resolves it
silently to the Identity matrix: the `GATE_MATRICES` lookup misses and the
switch's `default` branch returns `GATE_MATRICES.I`, so an unknown gate
executes as a no-op.  This theorem evaluates the code at the failing
input `"FOO"`. -/
theorem unknown_gate_resolves_to_identity :
    getGateMatrix "FOO" none none = iMat ∧ GATE_MATRICES "FOO" = none :=
  ⟨getGateMatrix_unknown_eval, GATE_MATRICES_unknown⟩

/-- C3.  The claim (and the spec) require `executeCircuit` and
`getStatevector` to detect validation-class errors before any trial starts
and abort with a structured error, running zero trials.  Neither function
validates anything: on `cInvalid` (a `CNOT` whose control equals its
target, a `DuplicateQubitRole` error) `executeCircuit` runs all three
requested trials and returns the full histogram `counts["0"] = 3`, and on
`cFoo` (an unknown gate identifier) `getStatevector` returns amplitudes,
the unknown gate having acted as Identity. -/
theorem invalid_circuit_runs_unvalidated :
    executeCircuitCounts cInvalid 3 rhoHalf "0" = 3 ∧
    (getStatevector cFoo rhoHalf).1 0 = 1 :=
  ⟨executeCircuitCounts_cInvalid, getStatevector_cFoo rhoHalf⟩

/-- C4.  Normalization invariant: over exact arithmetic, if the state is
normalized (`Σ real[i]² + imag[i]² = 1`) then it remains normalized after
`applySingleQubitGate` with any unitary matrix, after `applyControlledGate`
with any unitary matrix and distinct in-range control and target, after
`applySwapGate`, and after a completed `measureQubit` collapse (the random
draw lying in `[0, 1)`). -/
theorem normalization_invariant :
    (∀ (numQubits target : ℕ) (m : Mat2) (v : StateVec),
      target < numQubits → m.unitary → normSqSum numQubits v = 1 →
        normSqSum numQubits (applySingleQubitGate numQubits target m v) = 1) ∧
    (∀ (numQubits control target : ℕ) (m : Mat2) (v : StateVec),
      control < numQubits → target < numQubits → control ≠ target → m.unitary →
        normSqSum numQubits v = 1 →
        normSqSum numQubits (applyControlledGate numQubits control target m v) = 1) ∧
    (∀ (numQubits qubit1 qubit2 : ℕ) (v : StateVec),
      qubit1 < numQubits → qubit2 < numQubits → normSqSum numQubits v = 1 →
        normSqSum numQubits (applySwapGate numQubits qubit1 qubit2 v) = 1) ∧
    (∀ (numQubits target : ℕ) (v : StateVec) (r : ℝ),
      target < numQubits → 0 ≤ r → r < 1 → normSqSum numQubits v = 1 →
        normSqSum numQubits (measureQubit numQubits target v r).2 = 1) := by
  refine ⟨?_, ?_, ?_, ?_⟩
  · intro n t m v ht hm hv
    rw [normSqSum_applySingle ht hm v, hv]
  · intro n c t m v hc ht hct hm hv
    rw [normSqSum_applyControlled ht hct hm v, hv]
  · intro n q1 q2 v h1 h2 hv
    rw [normSqSum_applySwap h1 h2 v, hv]
  · intro n t v r ht hr0 hr1 hv
    exact normSqSum_measure v hr0 hr1 hv

/-- Witness for C4 at a concrete input: the Pauli-X gate on the one-qubit
initial state. -/
theorem normalization_invariant_witness :
    ((0 : ℕ) < 1 ∧ xMat.unitary ∧ normSqSum 1 initState = 1) ∧
    normSqSum 1 (applySingleQubitGate 1 0 xMat initState) = 1 :=
  ⟨⟨by norm_num, xMat_unitary, normSqSum_initState 1⟩,
    normalization_invariant.1 1 0 xMat initState (by norm_num) xMat_unitary
      (normSqSum_initState 1)⟩

/-- C5.  `getStatevector` is fully deterministic: the gate list it applies
(`svOrder`) contains no measurement operation, and its result does not
depend on the ambient `Math.random()` stream in any way — two calls on the
identical circuit return identical `real`/`imag` arrays. -/
theorem statevector_deterministic :
    (∀ c : Circuit, ∀ g ∈ svOrder c, g.gateId ≠ "M") ∧
    (∀ (c : Circuit) (rho1 rho2 : ℕ → ℝ),
      getStatevector c rho1 = getStatevector c rho2) :=
  ⟨svOrder_no_measure, fun _ _ _ => rfl⟩

/-- Witness for C5 on a concrete circuit containing a measurement gate. -/
theorem statevector_deterministic_witness :
    gH0.gateId ≠ "M" ∧ getStatevector cHM rho0 = getStatevector cHM rhoHalf :=
  ⟨statevector_deterministic.1 cHM gH0
      (by rw [svOrder_cHM]; exact List.mem_singleton_self gH0),
    statevector_deterministic.2 cHM rho0 rhoHalf⟩

/-- C6.  `applySingleQubitGate` with `stride = 2^target` replaces, for each
block start `i` (a multiple of `2·stride` below `2^numQubits`) and each
offset `j < stride`, the pair `(amp[i+j], amp[i+j+stride])` by the matrix
action on that pair; equivalently (second conjunct) it acts pointwise as
the matrix applied to the target qubit's bit, and (third conjunct) it
touches no index outside the array. -/
theorem apply_single_strided :
    ∀ (numQubits target : ℕ) (m : Mat2) (v : StateVec), target < numQubits →
      (∀ i j, i < 2 ^ numQubits → i % (2 ^ target * 2) = 0 → j < 2 ^ target →
        applySingleQubitGate numQubits target m v (i + j)
            = m.a * v (i + j) + m.b * v (i + j + 2 ^ target) ∧
          applySingleQubitGate numQubits target m v (i + j + 2 ^ target)
            = m.c * v (i + j) + m.d * v (i + j + 2 ^ target)) ∧
      (∀ k, k < 2 ^ numQubits →
        applySingleQubitGate numQubits target m v k =
          if k / 2 ^ target % 2 = 0 then m.a * v k + m.b * v (k + 2 ^ target)
          else m.c * v (k - 2 ^ target) + m.d * v k) ∧
      (∀ k, 2 ^ numQubits ≤ k → applySingleQubitGate numQubits target m v k = v k) := by
  intro n t m v ht
  refine ⟨?_, ?_, ?_⟩
  · intro i j hi himod hj
    have hp : (i + j, i + j + 2 ^ t) ∈ singlePairs n t := by
      unfold singlePairs
      rw [List.mem_flatMap]
      refine ⟨i, ?_, ?_⟩
      · rw [List.mem_filter, List.mem_range]
        exact ⟨hi, by simpa using himod⟩
      · rw [List.mem_map]
        exact ⟨j, List.mem_range.mpr hj, rfl⟩
    exact foldPairs_mem (gateOp m) _ (pairsOk_singlePairs ht) v _ hp
  · intro k hk
    exact applySingleQubitGate_apply ht m v hk
  · intro k hk
    exact applySingleQubitGate_frame ht m v hk

/-- Witness for C6 at a concrete input: Pauli-X on qubit 0 of one qubit,
block 0, offset 0. -/
theorem apply_single_strided_witness :
    ((0 : ℕ) < 1 ∧ (0 : ℕ) < 2 ^ 1 ∧ 0 % (2 ^ 0 * 2) = 0 ∧ (0 : ℕ) < 2 ^ 0) ∧
    (applySingleQubitGate 1 0 xMat initState (0 + 0)
        = xMat.a * initState (0 + 0) + xMat.b * initState (0 + 0 + 2 ^ 0) ∧
      applySingleQubitGate 1 0 xMat initState (0 + 0 + 2 ^ 0)
        = xMat.c * initState (0 + 0) + xMat.d * initState (0 + 0 + 2 ^ 0)) :=
  ⟨⟨by norm_num, by norm_num, by norm_num, by norm_num⟩,
    (apply_single_strided 1 0 xMat initState (by norm_num)).1 0 0 (by norm_num)
      (by norm_num) (by norm_num)⟩

/-- C7.  Controlled no-op frame property: `applyControlledGate` leaves every
amplitude whose control bit is 0 unchanged (both its real and imaginary
part), and transforms exactly the pairs whose control bit is 1, each
visited once through its target-bit-0 representative. -/
theorem controlled_gate_frame :
    ∀ (numQubits control target : ℕ) (m : Mat2) (v : StateVec),
      control < numQubits → target < numQubits → control ≠ target →
      (∀ k, Nat.testBit k control = false →
        applyControlledGate numQubits control target m v k = v k) ∧
      (∀ k, k < 2 ^ numQubits → Nat.testBit k control = true →
          Nat.testBit k target = false →
        applyControlledGate numQubits control target m v k
            = m.a * v k + m.b * v (k + 2 ^ target) ∧
          applyControlledGate numQubits control target m v (k + 2 ^ target)
            = m.c * v k + m.d * v (k + 2 ^ target)) := by
  intro n c t m v hc ht hct
  refine ⟨?_, ?_⟩
  · intro k hk
    exact applyControlledGate_notbit hct m v hk
  · intro k hk hkc hkt
    exact applyControlledGate_bit1 ht m v hk hkc (testBit_false_iff.mp hkt)

/-- Witness for C7 at a concrete input: control 0, target 1 on two qubits;
index 0 has control bit 0 and is untouched. -/
theorem controlled_gate_frame_witness :
    ((0 : ℕ) < 2 ∧ (1 : ℕ) < 2 ∧ (0 : ℕ) ≠ 1 ∧ Nat.testBit 0 0 = false) ∧
    applyControlledGate 2 0 1 xMat initState 0 = initState 0 :=
  ⟨⟨by norm_num, by norm_num, by norm_num, by decide⟩,
    (controlled_gate_frame 2 0 1 xMat initState (by norm_num) (by norm_num)
      (by norm_num)).1 0 (by decide)⟩

/-- C8.  Both `simulateOnce` (which folds over `execOrder`) and
`getStatevector` (which folds over `svOrder`) apply the gates stable-sorted
by column: the executed list is sorted by ascending column, is a
permutation of the (respectively filtered) input, and within every column
the gates keep their original input order (the filter by any fixed column
is unchanged).  ES2019 guarantees `Array.prototype.sort` is stable, which
the `mergeSort` embedding reproduces exactly. -/
theorem gates_stable_sorted_by_column :
    ∀ c : Circuit,
      (execOrder c).Pairwise (fun a b => a.column ≤ b.column) ∧
      List.Perm (execOrder c) c.gates ∧
      (∀ k : ℤ, (execOrder c).filter (fun g => decide (g.column = k))
          = c.gates.filter (fun g => decide (g.column = k))) ∧
      (svOrder c).Pairwise (fun a b => a.column ≤ b.column) ∧
      List.Perm (svOrder c) (c.gates.filter (fun g => !(g.gateId = "M" : Bool))) ∧
      (∀ k : ℤ, (svOrder c).filter (fun g => decide (g.column = k))
          = (c.gates.filter (fun g => !(g.gateId = "M" : Bool))).filter
              (fun g => decide (g.column = k))) :=
  fun c => ⟨execOrder_sorted c, execOrder_perm c, execOrder_stable c,
    svOrder_sorted c, svOrder_perm c, svOrder_stable c⟩

/-- C9.  Unitary inverses round-trip exactly over exact arithmetic (hence
within `1e-6` in floating point): applying S then Sdg, T then Tdg, or
`Rx(θ)` then `Rx(-θ)` to any state returns the original amplitudes. -/
theorem unitary_inverse_roundtrip :
    ∀ (numQubits target : ℕ) (v : StateVec), target < numQubits →
      applySingleQubitGate numQubits target sdgMat
          (applySingleQubitGate numQubits target sMat v) = v ∧
      applySingleQubitGate numQubits target tdgMat
          (applySingleQubitGate numQubits target tMat v) = v ∧
      (∀ θ : ℝ, applySingleQubitGate numQubits target (createRx (-θ))
          (applySingleQubitGate numQubits target (createRx θ) v) = v) := by
  intro n t v ht
  refine ⟨?_, ?_, ?_⟩
  · rw [applySingleQubitGate_comp ht, matMul_sdg_s, applySingleQubitGate_id ht]
  · rw [applySingleQubitGate_comp ht, matMul_tdg_t, applySingleQubitGate_id ht]
  · intro θ
    rw [applySingleQubitGate_comp ht, matMul_rx, applySingleQubitGate_id ht]

/-- Witness for C9 at a concrete input. -/
theorem unitary_inverse_roundtrip_witness :
    (0 : ℕ) < 1 ∧
    applySingleQubitGate 1 0 sdgMat (applySingleQubitGate 1 0 sMat initState)
      = initState :=
  ⟨by norm_num, (unitary_inverse_roundtrip 1 0 initState (by norm_num)).1⟩

/-- C10.  Implicit defaulting of missing partner qubits: in both the
`simulateOnce` dispatch (`simStep`) and the `getStatevector` dispatch
(`svStep`), a `CNOT` or `CZ` whose `control` field is absent silently uses
`target - 1` (JS number arithmetic, embedded as `ℤ`) as its control, and a
`SWAP` whose `control` field is absent uses `target + 1` as its partner; no
error is raised (the step functions are total and simply proceed to the
gate application).  In particular a control-less `CNOT` on target 0
resolves its control to `-1` rather than being rejected. -/
theorem missing_partner_defaults :
    (∀ (numQubits : ℕ) (rho : ℕ → ℝ) (st : SimSt) (g : GateOp),
      g.gateId = "CNOT" → g.control = none →
        simStep numQubits rho st g = { st with
          v := applyControlledGateZ numQubits ((g.target : ℤ) - 1) g.target xMat st.v }) ∧
    (∀ (numQubits : ℕ) (rho : ℕ → ℝ) (st : SimSt) (g : GateOp),
      g.gateId = "CZ" → g.control = none →
        simStep numQubits rho st g = { st with
          v := applyControlledGateZ numQubits ((g.target : ℤ) - 1) g.target zMat st.v }) ∧
    (∀ (numQubits : ℕ) (rho : ℕ → ℝ) (st : SimSt) (g : GateOp),
      g.gateId = "SWAP" → g.control = none →
        simStep numQubits rho st g = { st with
          v := applySwapGate numQubits g.target (g.target + 1) st.v }) ∧
    (∀ (numQubits : ℕ) (v : StateVec) (g : GateOp),
      g.gateId = "CNOT" → g.control = none →
        svStep numQubits v g
          = applyControlledGateZ numQubits ((g.target : ℤ) - 1) g.target xMat v) ∧
    (∀ (numQubits : ℕ) (v : StateVec) (g : GateOp),
      g.gateId = "CZ" → g.control = none →
        svStep numQubits v g
          = applyControlledGateZ numQubits ((g.target : ℤ) - 1) g.target zMat v) ∧
    (∀ (numQubits : ℕ) (v : StateVec) (g : GateOp),
      g.gateId = "SWAP" → g.control = none →
        svStep numQubits v g = applySwapGate numQubits g.target (g.target + 1) v) ∧
    (∀ (numQubits : ℕ) (rho : ℕ → ℝ) (st : SimSt) (g : GateOp),
      g.gateId = "CNOT" → g.control = none → g.target = 0 →
        simStep numQubits rho st g
          = { st with v := applyControlledGateZ numQubits (-1) 0 xMat st.v }) := by
  refine ⟨simStep_cnot_default, simStep_cz_default, simStep_swap_default,
    svStep_cnot_default, svStep_cz_default, svStep_swap_default, ?_⟩
  intro n rho st g hid hc ht
  have h := simStep_cnot_default n rho st g hid hc
  rw [ht] at h
  simpa using h

/-- Witness for C10: a concrete control-less CNOT on target 0. -/
theorem missing_partner_defaults_witness :
    (gCNOTnone.gateId = "CNOT" ∧ gCNOTnone.control = none ∧ gCNOTnone.target = 0) ∧
    simStep 1 rho0 stEx gCNOTnone
      = { stEx with v := applyControlledGateZ 1 (-1) 0 xMat stEx.v } :=
  ⟨⟨rfl, rfl, rfl⟩,
    missing_partner_defaults.2.2.2.2.2.2 1 rho0 stEx gCNOTnone rfl rfl rfl⟩
